import Mathlib

/-!
Verification of the content-templating and search pipeline of the
documentation site: a shallow embedding of `src/lib/search.ts`,
`src/lib/models.ts`, `src/lib/handlebars.ts` (templateMarkdown),
`src/components/ContentInjector.tsx` (processCodeBlock), the image
rewrite of `MarkdownRenderer` / the markdown mirror route, and the
search HTTP route, together with proofs about them.

Strings are modelled as `List Char`; JavaScript regular-expression
replacements are modelled by dedicated deterministic scanners that
implement the same matching discipline as the concrete regexes in the
source (all of which are deterministic: their quantifiers never need
backtracking to decide a match, as argued at each definition).
-/

namespace DW

abbrev Str := List Char

/-- The two brace characters, written via code points so that brace-bearing
text never appears raw inside character literals. -/
def lbrace : Char := Char.ofNat 123

def rbrace : Char := Char.ofNat 125

/-- The backtick character. -/
def backtick : Char := Char.ofNat 96

/-- The apostrophe character. -/
def apos : Char := Char.ofNat 39

/-- JS whitespace (the characters relevant to `\s` / `trim` here). -/
def jsIsWs (c : Char) : Bool :=
  c = ' ' || c = '\t' || c = '\n' || c = '\r' || c = Char.ofNat 11 || c = Char.ofNat 12

/-- JS `String.prototype.trim`. -/
def trimStr (s : Str) : Str :=
  ((s.dropWhile jsIsWs).reverse.dropWhile jsIsWs).reverse

/-- JS `String.prototype.toLowerCase` (ASCII range, which is all the
pipeline compares). -/
def toLowerStr (s : Str) : Str := s.map Char.toLower

/-- JS `a.includes(b)`: does `pat` occur as a contiguous substring of `s`? -/
def occursIn (pat : Str) : Str → Bool
  | [] => pat.isEmpty
  | c :: t => pat.isPrefixOf (c :: t) || occursIn pat t

/-- Split `s` at the first occurrence of `pat`, returning the part before
the occurrence and the part after it (the occurrence itself is dropped).
`none` when `pat` does not occur. -/
def splitOnSub (pat : Str) : Str → Option (Str × Str)
  | [] => if pat.isEmpty then some ([], []) else none
  | c :: t =>
    if pat.isPrefixOf (c :: t) then some ([], (c :: t).drop pat.length)
    else
      match splitOnSub pat t with
      | some (a, b) => some (c :: a, b)
      | none => none

/-- Decomposition property of `splitOnSub`. -/
theorem splitOnSub_append {pat s a b : Str} (h : splitOnSub pat s = some (a, b)) :
    s = a ++ pat ++ b ∧ b.length + pat.length ≤ s.length := by
  induction s generalizing a with
  | nil =>
    simp only [splitOnSub] at h
    by_cases hp : pat.isEmpty
    · rw [if_pos hp] at h
      obtain ⟨rfl, rfl⟩ := Prod.mk.injEq .. ▸ (Option.some.injEq .. ▸ h)
      simp [List.isEmpty_iff.mp hp]
    · rw [if_neg hp] at h
      exact absurd h (by simp)
  | cons c t ih =>
    simp only [splitOnSub] at h
    by_cases hp : pat.isPrefixOf (c :: t)
    · rw [if_pos hp] at h
      obtain ⟨rfl, rfl⟩ := Prod.mk.injEq .. ▸ (Option.some.injEq .. ▸ h)
      have hpre : pat <+: (c :: t) := List.isPrefixOf_iff_prefix.mp hp
      refine ⟨?_, ?_⟩
      · obtain ⟨r, hr⟩ := hpre
        simp only [List.nil_append]
        rw [← hr, List.drop_left]
      · have := hpre.length_le
        simp only [List.length_drop, List.length_cons] at *
        omega
    · rw [if_neg hp] at h
      cases hsplit : splitOnSub pat t with
      | none => rw [hsplit] at h; exact absurd h (by simp)
      | some ab =>
        obtain ⟨a0, b0⟩ := ab
        rw [hsplit] at h
        obtain ⟨rfl, rfl⟩ := Prod.mk.injEq .. ▸ (Option.some.injEq .. ▸ h)
        obtain ⟨h1, h2⟩ := ih hsplit
        refine ⟨by simp [h1], ?_⟩
        simp only [List.length_cons]
        omega

/-- JS `x || y` on strings: empty string is falsy. -/
def jsOrStr (x y : Str) : Str := if x.isEmpty then y else x

/-- Read of an optional string field followed by `|| y` (`undefined` and
the empty string are both falsy). -/
def jsOrOpt (x : Option Str) (y : Str) : Str := jsOrStr (x.getD []) y

/-- Literal global string replacement, the semantics of
`s.replace(/pat/g, rep)` for a regex `pat` that is a literal character
sequence and a replacement `rep` without `$` (so ECMAScript's
GetSubstitution is the identity on it): scan left to right, replace each
non-overlapping occurrence, continue scanning after the replaced
occurrence (the replacement text is not rescanned). -/
def replaceAllLit (pat rep s : Str) : Str := go s.length s
where
  /-- Scanning step, structurally recursive on an explicit step budget
  (instantiated with the input length, which bounds the number of steps
  because every step consumes at least one character), so that the
  function evaluates by kernel reduction. -/
  go : Nat → Str → Str
  | _, [] => []
  | 0, rest => rest
  | fuel + 1, c :: t =>
    if pat ≠ [] ∧ pat.isPrefixOf (c :: t) then
      rep ++ go fuel ((c :: t).drop pat.length)
    else
      c :: go fuel t

/-- ECMAScript `GetSubstitution` for a string replacement argument of
`String.prototype.replace` with a capture-group-free pattern: in the
replacement text, `$$` yields `$`, `$&` the matched text, a dollar
followed by a backtick the text before the match, `$` followed by an
apostrophe the text after the match; any other `$` sequence (including
`$n`, since there are no capture groups) is kept literally. -/
def getSub (matched before after : Str) : Str → Str
  | [] => []
  | c :: t =>
    if c = '$' then
      match t with
      | [] => [c]
      | d :: t2 =>
        if d = '$' then '$' :: getSub matched before after t2
        else if d = '&' then matched ++ getSub matched before after t2
        else if d = backtick then before ++ getSub matched before after t2
        else if d = apos then after ++ getSub matched before after t2
        else c :: d :: getSub matched before after t2
    else c :: getSub matched before after t

/-- Global string replacement with a string replacement argument, the
semantics of `s.replace(/pat/g, rep)` for a literal pattern: each
occurrence is replaced by `GetSubstitution(rep)` evaluated at the match
position (`pos` tracks the position in the original string `s` for the
before/after texts). -/
def replaceAllSub (pat rep s : Str) : Str := go s.length 0 s
where
  go : Nat → Nat → Str → Str
  | _, _, [] => []
  | 0, _, rest => rest
  | fuel + 1, pos, c :: t =>
    if pat ≠ [] ∧ pat.isPrefixOf (c :: t) then
      getSub pat (s.take pos) ((c :: t).drop pat.length) rep ++
        go fuel (pos + pat.length) ((c :: t).drop pat.length)
    else
      c :: go fuel (pos + 1) t

section Search

/-! ## `src/lib/search.ts` -/

/-- One entry of the static search index (`DocSearchIndexItem` in
`src/sanity/types`, shaped by the build script's query: `_id`, `title`,
optional `sidebarLabel` / `description` / `body`, slugs and names). -/
structure DocSearchIndexItem where
  _id : Str
  title : Str
  sidebarLabel : Option Str := none
  description : Option Str := none
  body : Option Str := none
  slug : Str := []
  productSlug : Str := []
  productName : Str := []
  categorySlug : Option Str := none
  categoryName : Option Str := none
deriving DecidableEq, Repr

def MAX_RESULTS : Nat := 20

/-- `normalize` from search.ts: lower-case then trim. -/
def normalize (text : Str) : Str := trimStr (toLowerStr text)

def tripleBacktick : Str := List.replicate 3 backtick

/-- `.replace(/```[\s\S]*?```/g, " ")`: remove fenced code blocks (lazy
match: the closing fence is the first triple backtick after the opening
one; an unclosed fence matches nothing, so scanning moves on by one
character, which leaves the text unchanged). -/
def stripFencedCode (s : Str) : Str := go s.length s
where
  go : Nat → Str → Str
  | _, [] => []
  | 0, rest => rest
  | fuel + 1, c :: t =>
    if tripleBacktick.isPrefixOf (c :: t) then
      match splitOnSub tripleBacktick ((c :: t).drop 3) with
      | some (_, rest) => ' ' :: go fuel rest
      | none => c :: go fuel t
    else c :: go fuel t

/-- `if p.isPrefixOf s then consume it`. -/
def expectP (p s : Str) : Option Str :=
  if p.isPrefixOf s then some (s.drop p.length) else none

theorem expectP_some {p s r : Str} (h : expectP p s = some r) :
    s = p ++ r ∧ r.length + p.length = s.length := by
  unfold expectP at h
  by_cases hp : p.isPrefixOf s
  · rw [if_pos hp] at h
    obtain ⟨t, ht⟩ := List.isPrefixOf_iff_prefix.mp hp
    injection h with h
    subst h
    refine ⟨?_, ?_⟩
    · rw [← ht, List.drop_left]
    · rw [← ht, List.drop_left, List.length_append]
      omega
  · rw [if_neg hp] at h
    exact absurd h (by simp)

theorem length_dropWhile_le (p : Char → Bool) (l : Str) :
    (l.dropWhile p).length ≤ l.length := by
  induction l with
  | nil => simp
  | cons a t ih =>
    by_cases h : p a
    · rw [List.dropWhile_cons_of_pos h]
      simp only [List.length_cons]
      omega
    · rw [List.dropWhile_cons_of_neg h]

/-- `.replace(/`[^`]*`/g, " ")`: inline code spans become a space. -/
def stripInlineCode (s : Str) : Str := go s.length s
where
  go : Nat → Str → Str
  | _, [] => []
  | 0, rest => rest
  | fuel + 1, c :: t =>
    if c = backtick then
      match t.dropWhile (· != backtick) with
      | _ :: rest => ' ' :: go fuel rest
      | [] => c :: go fuel t
    else c :: go fuel t

/-- Match `!\[[^\]]*]\([^)]+\)` at the head of `s`; return the rest. -/
def imageAt (s : Str) : Option Str :=
  match expectP "![".toList s with
  | none => none
  | some r1 =>
    match expectP "](".toList (r1.dropWhile (· != ']')) with
    | none => none
    | some r3 =>
      if r3.takeWhile (· != ')') = [] then none
      else expectP ")".toList (r3.dropWhile (· != ')'))

theorem imageAt_some {s r : Str} (h : imageAt s = some r) : r.length < s.length := by
  unfold imageAt at h
  cases h1 : expectP "![".toList s with
  | none => rw [h1] at h; exact absurd h (by simp)
  | some r1 =>
    rw [h1] at h
    dsimp only at h
    cases h2 : expectP "](".toList (r1.dropWhile (· != ']')) with
    | none => rw [h2] at h; exact absurd h (by simp)
    | some r3 =>
      rw [h2] at h
      dsimp only at h
      by_cases h3 : r3.takeWhile (· != ')') = []
      · rw [if_pos h3] at h; exact absurd h (by simp)
      · rw [if_neg h3] at h
        have q1 := (expectP_some h1).2
        have q2 := (expectP_some h2).2
        have q4 := (expectP_some h).2
        have d1 : (r1.dropWhile (· != ']')).length ≤ r1.length :=
          length_dropWhile_le (· != ']') r1
        have d3 : (r3.dropWhile (· != ')')).length ≤ r3.length :=
          length_dropWhile_le (· != ')') r3
        have e1 : ("![".toList).length = 2 := rfl
        have e2 : ("](".toList).length = 2 := rfl
        have e3 : (")".toList).length = 1 := rfl
        simp only [List.length_append, e1, e2, e3] at q1 q2 q4
        omega

/-- `.replace(/!\[[^\]]*]\([^)]+\)/g, " ")`: image syntax becomes a space. -/
def stripImageSyntax (s : Str) : Str := go s.length s
where
  go : Nat → Str → Str
  | _, [] => []
  | 0, rest => rest
  | fuel + 1, c :: t =>
    match imageAt (c :: t) with
    | some rest => ' ' :: go fuel rest
    | none => c :: go fuel t

/-- Match `\[([^\]]+)\]\([^)]+\)` at the head of `s`; return the captured
link text and the rest. -/
def linkAt (s : Str) : Option (Str × Str) :=
  match expectP "[".toList s with
  | none => none
  | some r1 =>
    let txt := r1.takeWhile (· != ']')
    if txt = [] then none
    else
      match expectP "](".toList (r1.dropWhile (· != ']')) with
      | none => none
      | some r3 =>
        if r3.takeWhile (· != ')') = [] then none
        else (expectP ")".toList (r3.dropWhile (· != ')'))).map (fun r => (txt, r))

theorem linkAt_some {s txt r : Str} (h : linkAt s = some (txt, r)) : r.length < s.length := by
  unfold linkAt at h
  cases h1 : expectP "[".toList s with
  | none => rw [h1] at h; exact absurd h (by simp)
  | some r1 =>
    rw [h1] at h
    dsimp only at h
    by_cases h0 : r1.takeWhile (· != ']') = []
    · rw [if_pos h0] at h; exact absurd h (by simp)
    · rw [if_neg h0] at h
      cases h2 : expectP "](".toList (r1.dropWhile (· != ']')) with
      | none => rw [h2] at h; exact absurd h (by simp)
      | some r3 =>
        rw [h2] at h
        dsimp only at h
        by_cases h3 : r3.takeWhile (· != ')') = []
        · rw [if_pos h3] at h; exact absurd h (by simp)
        · rw [if_neg h3] at h
          cases h4 : expectP ")".toList (r3.dropWhile (· != ')')) with
          | none => rw [h4] at h; exact absurd h (by simp)
          | some r5 =>
            rw [h4] at h
            injection h with h
            have hr : r = r5 := congrArg Prod.snd h.symm
            subst hr
            have q1 := (expectP_some h1).2
            have q2 := (expectP_some h2).2
            have q4 := (expectP_some h4).2
            have d1 : (r1.dropWhile (· != ']')).length ≤ r1.length :=
              length_dropWhile_le (· != ']') r1
            have d3 : (r3.dropWhile (· != ')')).length ≤ r3.length :=
              length_dropWhile_le (· != ')') r3
            have e1 : ("[".toList).length = 1 := rfl
            have e2 : ("](".toList).length = 2 := rfl
            have e3 : (")".toList).length = 1 := rfl
            simp only [List.length_append, e1, e2, e3] at q1 q2 q4
            omega

/-- `.replace(/\[([^\]]+)\]\([^)]+\)/g, "$1")`: links become their text. -/
def stripLinkSyntax (s : Str) : Str := go s.length s
where
  go : Nat → Str → Str
  | _, [] => []
  | 0, rest => rest
  | fuel + 1, c :: t =>
    match linkAt (c :: t) with
    | some (txt, rest) => txt ++ go fuel rest
    | none => c :: go fuel t

/-- `.replace(/[#>*_~\-]/g, " ")`. -/
def stripPunct (s : Str) : Str :=
  s.map (fun c => if c = '#' || c = '>' || c = '*' || c = '_' || c = '~' || c = '-' then ' ' else c)

/-- `.replace(/\s+/g, " ")`. -/
def collapseWs (s : Str) : Str := go s.length s
where
  go : Nat → Str → Str
  | _, [] => []
  | 0, rest => rest
  | fuel + 1, c :: t =>
    if jsIsWs c then ' ' :: go fuel (t.dropWhile jsIsWs)
    else c :: go fuel t

/-- `stripMarkdown` from search.ts: the six replacement passes then trim. -/
def stripMarkdown (markdown : Str) : Str :=
  trimStr (collapseWs (stripPunct (stripLinkSyntax (stripImageSyntax
    (stripInlineCode (stripFencedCode markdown))))))

/-- Index of the first occurrence of `pat` (JS `indexOf`; `none` for -1). -/
def idxOfSub (pat : Str) : Str → Option Nat
  | [] => if pat.isEmpty then some 0 else none
  | c :: t =>
    if pat.isPrefixOf (c :: t) then some 0
    else (idxOfSub pat t).map (· + 1)

/-- `excerptAround` from search.ts. -/
def excerptAround (text query : Str) (maxLength : Nat := 180) : Str :=
  if text.isEmpty then []
  else
    match idxOfSub (normalize query) (normalize text) with
    | none =>
      if text.length > maxLength then text.take maxLength ++ "...".toList else text
    | some index =>
      -- Math.max(0, index - floor(maxLength / 3)) is truncated subtraction on ℕ
      let start := index - maxLength / 3
      let endPos := min text.length (start + maxLength)
      let pre := if start > 0 then "...".toList else ([] : Str)
      let suf := if endPos < text.length then "...".toList else ([] : Str)
      pre ++ trimStr ((text.drop start).take (endPos - start)) ++ suf

/-- `rankDoc` from search.ts: the additive scoring table. -/
def rankDoc (doc : DocSearchIndexItem) (query : Str) : Nat :=
  let q := normalize query
  let title := normalize doc.title
  let sidebarLabel := normalize (doc.sidebarLabel.getD [])
  let description := normalize (doc.description.getD [])
  let body := normalize (stripMarkdown (doc.body.getD []))
  (if title = q then 120 else 0) +
  (if q.isPrefixOf title then 80 else 0) +
  (if occursIn q title then 60 else 0) +
  (if occursIn q sidebarLabel then 40 else 0) +
  (if occursIn q description then 30 else 0) +
  (if occursIn q body then 20 else 0)

/-- `DocSearchResult`: an index item plus `score` and `snippet`. -/
structure DocSearchResult extends DocSearchIndexItem where
  score : Nat
  snippet : Str
deriving DecidableEq, Repr

/-- Stable descending insertion: walks past strictly higher scores and
places the new element before the first element of lower-or-equal score.
Because `sortByScoreDesc` inserts from the right, an element of the input
ends up before every equal-scored element that occurs later in the input:
this is exactly the stable sort that `Array.prototype.sort` (guaranteed
stable by the ECMAScript spec) performs with the comparator
`(a, b) => b.score - a.score` in search.ts. -/
def insertByScore (x : DocSearchResult) : List DocSearchResult → List DocSearchResult
  | [] => [x]
  | y :: ys => if x.score ≥ y.score then x :: y :: ys else y :: insertByScore x ys

/-- Stable sort by descending score (see `insertByScore`). -/
def sortByScoreDesc : List DocSearchResult → List DocSearchResult
  | [] => []
  | x :: xs => insertByScore x (sortByScoreDesc xs)

/-- The scored, filtered (score > 0) but not yet sorted or capped list:
the `.map(...).filter(Boolean)` stage of `searchDocs`. -/
def scoredResults (docs : List DocSearchIndexItem) (q : Str) : List DocSearchResult :=
  docs.filterMap (fun doc =>
    let score := rankDoc doc q
    if score ≤ 0 then none
    else
      let bodyText := stripMarkdown (doc.body.getD [])
      let snippetSource := jsOrOpt doc.description bodyText
      some { toDocSearchIndexItem := doc, score := score,
             snippet := excerptAround snippetSource q 180 })

/-- `searchDocs` from search.ts. -/
def searchDocs (docs : List DocSearchIndexItem) (query : Str) : List DocSearchResult :=
  let q := normalize query
  if q.isEmpty then []
  else (sortByScoreDesc (scoredResults docs q)).take MAX_RESULTS

/-- Response item shape of the search endpoint (`/api/search`). -/
structure SearchMatch where
  id : Str
  title : Str
  productName : Str
  categoryName : Str
  snippet : Str
  score : Nat
  href : Str
  path : Str
deriving DecidableEq, Repr

def LIMIT_DEFAULT : Int := 6

/-- The `limit` computation of the route: clamp a finite numeric parameter
to [1, 20]; a missing or non-numeric parameter yields the default (6). -/
def searchRouteLimit (limitParam : Option Int) : Int :=
  match limitParam with
  | some n => min (max n 1) 20
  | none => LIMIT_DEFAULT

def searchResultPath (r : DocSearchResult) : Str :=
  '/' :: r.productSlug ++ '/' :: r.slug

/-- The GET handler of `src/app/api/search/route.ts` (pure core): trim the
query, filter by product slug when given, run `searchDocs`, then apply the
caller limit on top of `searchDocs`' own cap, then project to the response
shape. -/
def searchRoute (allDocs : List DocSearchIndexItem) (q productSlug : Option Str)
    (limitParam : Option Int) : List SearchMatch :=
  let query := trimStr (q.getD [])
  let product := trimStr (productSlug.getD [])
  let limit := searchRouteLimit limitParam
  if query.isEmpty then []
  else
    let docs := if product.isEmpty then allDocs
      else allDocs.filter (fun d => d.productSlug == product)
    ((searchDocs docs query).take limit.toNat).map (fun r =>
      { id := r._id
        title := jsOrOpt r.sidebarLabel r.title
        productName := r.productName
        categoryName := (r.categoryName.getD [])
        snippet := r.snippet
        score := r.score
        href := searchResultPath r
        path := searchResultPath r })

end Search

section Models

/-! ## `src/lib/models.ts` and the price-formatting Handlebars helpers -/

/-- A JS number as it arises here: NaN, or a finite decimal value
`(-1)^neg * num / 10^exp` — the exact value of `parseFloat` on the short
decimal tariff strings.  Represented over `Nat` (sign, mantissa, power of
ten) so that every computation reduces in the kernel. -/
inductive JsNum where
  | fin (neg : Bool) (num : Nat) (exp : Nat)
  | nan
deriving DecidableEq, Repr

/-- A JS value as seen by the Handlebars price helpers (`typeof` check). -/
inductive JsVal where
  | num (n : JsNum)
  | str (s : Str)
  | nullV
  | undef
deriving DecidableEq, Repr

def JsVal.isNumber : JsVal → Bool
  | .num _ => true
  | _ => false

def digitVal (c : Char) : Nat := c.toNat - 48

def digitsToNat (ds : Str) : Nat := ds.foldl (fun acc c => acc * 10 + digitVal c) 0

def pow10 (k : Nat) : Nat := 10 ^ k

/-- JS `parseFloat`: skip leading whitespace, optional sign, decimal
digits with optional fraction and optional exponent; parse the longest
valid numeric prefix; NaN when there is none. -/
def jsParseFloat (s : Str) : JsNum :=
  let s1 := s.dropWhile jsIsWs
  let (neg, s2) : Bool × Str :=
    match s1 with
    | '-' :: t => (true, t)
    | '+' :: t => (false, t)
    | t => (false, t)
  let intDigits := s2.takeWhile Char.isDigit
  let s3 := s2.dropWhile Char.isDigit
  let (fracDigits, s4) : Str × Str :=
    match s3 with
    | '.' :: t => (t.takeWhile Char.isDigit, t.dropWhile Char.isDigit)
    | t => ([], t)
  if intDigits.isEmpty ∧ fracDigits.isEmpty then JsNum.nan
  else
    let num := digitsToNat (intDigits ++ fracDigits)
    let exp := fracDigits.length
    match s4 with
    | e :: rest =>
      if e = 'e' ∨ e = 'E' then
        let (eneg, r2) : Bool × Str :=
          match rest with
          | '-' :: t => (true, t)
          | '+' :: t => (false, t)
          | t => (false, t)
        let eDigits := r2.takeWhile Char.isDigit
        if eDigits.isEmpty then JsNum.fin neg num exp
        else
          let k := digitsToNat eDigits
          if eneg then JsNum.fin neg num (exp + k)
          else if k ≥ exp then JsNum.fin neg (num * pow10 (k - exp)) 0
          else JsNum.fin neg num (exp - k)
      else JsNum.fin neg num exp
    | [] => JsNum.fin neg num exp

structure ModelPricing where
  input : JsNum
  output : JsNum
deriving DecidableEq, Repr

/-- The `pricing` object of a transformed model: the three tiers of the
`Model` interface in models.ts. -/
structure ModelPricingTiers where
  batch1h : Option ModelPricing
  batch24h : Option ModelPricing
  realtime : Option ModelPricing
deriving DecidableEq, Repr

/-- JS property access by name on the pricing object: the object built by
`transformModels` has exactly the keys `batch1h`, `batch24h` and
`realtime`; reading any other key (e.g. `batch`) yields `undefined`. -/
def ModelPricingTiers.jsGet (p : ModelPricingTiers) (key : Str) : Option ModelPricing :=
  if key = "batch1h".toList then p.batch1h
  else if key = "batch24h".toList then p.batch24h
  else if key = "realtime".toList then p.realtime
  else none

/-- The `Model` interface of models.ts (`type` is a Lean keyword, so the
field is spelled `modelType`). -/
structure Model where
  id : Str
  name : Str
  description : Option Str := none
  modelType : Str := []
  capabilities : List Str := []
  pricing : ModelPricingTiers := ⟨none, none, none⟩
deriving DecidableEq, Repr

/-- `RawTariff` from models.ts (`completion_window` is optional). -/
structure RawTariff where
  name : Str := []
  input_price_per_token : Str
  output_price_per_token : Str
  api_key_purpose : Str
  completion_window : Option Str := none
deriving DecidableEq, Repr

/-- `RawModel` from models.ts. A missing `tariffs` array behaves exactly
like an empty one under `m.tariffs?.find(...)`, so it is a plain list. -/
structure RawModel where
  model_name : Str
  -- `alias` is a Lean keyword, so the field is spelled `aliasId`
  aliasId : Str := []
  description : Option Str := none
  model_type : Str := []
  capabilities : Option (List Str) := none
  tariffs : List RawTariff := []
deriving DecidableEq, Repr

def tariffToPricing (t : RawTariff) : ModelPricing :=
  ⟨jsParseFloat t.input_price_per_token, jsParseFloat t.output_price_per_token⟩

/-- The per-tier tariff predicates used by `transformModels`
(`t.completion_window?.includes('1h')`: a missing window is falsy). -/
def isBatch1hTariff (t : RawTariff) : Bool :=
  t.api_key_purpose == "batch".toList &&
    (t.completion_window.map (fun w => occursIn "1h".toList w)).getD false

def isBatch24hTariff (t : RawTariff) : Bool :=
  t.api_key_purpose == "batch".toList &&
    (t.completion_window.map (fun w => occursIn "24h".toList w)).getD false

def isRealtimeTariff (t : RawTariff) : Bool :=
  t.api_key_purpose == "realtime".toList

/-- `transformModels` from models.ts. -/
def transformModels (rawModels : List RawModel) : List Model :=
  rawModels.map (fun m =>
    let batch1hTariff := m.tariffs.find? isBatch1hTariff
    let batch24hTariff := m.tariffs.find? isBatch24hTariff
    let realtimeTariff := m.tariffs.find? isRealtimeTariff
    { id := jsOrStr m.aliasId m.model_name
      name := m.model_name
      description := m.description
      modelType := m.model_type
      capabilities := m.capabilities.getD []
      pricing :=
        { batch1h := batch1hTariff.map tariffToPricing
          batch24h := batch24hTariff.map tariffToPricing
          realtime := realtimeTariff.map tariffToPricing } })

def DEFAULT_MODEL_ID : Str := "Qwen/Qwen3-VL-235B-A22B-Instruct-FP8".toList

/-- `getDefaultModel` from models.ts (a Lean list is always an array, so
the `!Array.isArray(models)` guard coincides with the embedding's types;
`defaultModel || models[0]` falls back to the first element because a
found model object is always truthy). -/
def getDefaultModel (models : List Model) : Option Model :=
  if models.isEmpty then none
  else
    match models.find? (fun m => m.id == DEFAULT_MODEL_ID) with
    | some defaultModel => some defaultModel
    | none => models.head?

def natToStr (n : Nat) : Str := (Nat.repr n).toList

/-- Two-digit zero-padded rendering of `n < 100`. -/
def pad2 (n : Nat) : Str :=
  if n < 10 then '0' :: natToStr n else natToStr n

/-- JS `Number.prototype.toFixed(2)`: round the magnitude half-up to two
decimals (the ECMAScript spec picks the larger candidate on ties) and
render with exactly two fraction digits, with the sign in front for a
negative non-zero mantissa. -/
def toFixed2 : JsNum → Str
  | .nan => "NaN".toList
  | .fin neg num exp =>
    let n := (num * 200 + pow10 exp) / (2 * pow10 exp)
    let mag := natToStr (n / 100) ++ '.' :: pad2 (n % 100)
    if neg ∧ num ≠ 0 then '-' :: mag else mag

/-- The `formatPrice` Handlebars helper: `typeof price !== 'number'`
yields "N/A", otherwise `"$" + price.toFixed(2)`. -/
def formatPrice (price : JsVal) : Str :=
  match price with
  | .num n => '$' :: toFixed2 n
  | _ => "N/A".toList

/-- Multiplication by 1,000,000 (`price * 1_000_000`). -/
def jsNumMul1M : JsNum → JsNum
  | .fin neg num exp =>
    if exp ≥ 6 then .fin neg num (exp - 6) else .fin neg (num * pow10 (6 - exp)) 0
  | .nan => .nan

/-- The `formatPricePer1M` Handlebars helper. -/
def formatPricePer1M (price : JsVal) : Str :=
  match price with
  | .num n => '$' :: toFixed2 (jsNumMul1M n)
  | _ => "N/A".toList

/-- Remove trailing decimal zeros: reduce `(num, exp)` with
`num / 10^exp` fixed until the last digit is significant. -/
def decReduce : Nat → Nat → Nat × Nat
  | num, 0 => (num, 0)
  | num, e + 1 => if num % 10 = 0 then decReduce (num / 10) e else (num, e + 1)

def padLeftZeros (ds : Str) (k : Nat) : Str :=
  List.replicate (k - ds.length) '0' ++ ds

/-- JS `String(x)` for the numbers that arise from the judged pricing
inputs: shortest positional decimal rendering. (JS switches to
exponential notation for magnitudes below 1e-6; none of the inputs
exercised by the claims reach that range.) -/
def jsNumToStr : JsNum → Str
  | .nan => "NaN".toList
  | .fin neg num exp =>
    let r := decReduce num exp
    let mag :=
      if r.2 = 0 then natToStr r.1
      else natToStr (r.1 / pow10 r.2) ++ '.' :: padLeftZeros (natToStr (r.1 % pow10 r.2)) r.2
    if neg ∧ r.1 ≠ 0 then '-' :: mag else mag

end Models

section Injector

/-! ## `src/components/ContentInjector.tsx` (processCodeBlock) -/

/-- Atoms of the syntax-highlighted placeholder regexes of
ContentInjector. Each regex is a sequence of these; all of them are
deterministic: `[^>]*>` can only stop at the first `>`, `\s*` is followed
by `<`, and each optional group starts with `<` while the atom after it
never does, so taking an optional group whenever its first characters are
present is equivalent to backtracking regex matching. -/
inductive HtmAtom where
  | lit (s : Str)
  | tillGt
  | ws
  | optSpanOpen
  | optClose
deriving DecidableEq, Repr

def spanOpen : Str := "<span".toList

def spanClose : Str := "</span>".toList

/-- Match a sequence of atoms at the head of `s`; return the rest. -/
def matchAtoms : List HtmAtom → Str → Option Str
  | [], s => some s
  | .lit p :: as, s => if p.isPrefixOf s then matchAtoms as (s.drop p.length) else none
  | .tillGt :: as, s =>
    match s.dropWhile (· != '>') with
    | _ :: r => matchAtoms as r
    | [] => none
  | .ws :: as, s => matchAtoms as (s.dropWhile jsIsWs)
  | .optSpanOpen :: as, s =>
    if spanOpen.isPrefixOf s then
      match (s.drop 5).dropWhile (· != '>') with
      | _ :: r => matchAtoms as r
      | [] => none
    else matchAtoms as s
  | .optClose :: as, s =>
    if spanClose.isPrefixOf s then matchAtoms as (s.drop 7) else matchAtoms as s

theorem matchAtoms_le {atoms : List HtmAtom} {s r : Str}
    (h : matchAtoms atoms s = some r) : r.length ≤ s.length := by
  induction atoms generalizing s with
  | nil =>
    simp only [matchAtoms] at h
    injection h with h
    exact h ▸ Nat.le_refl _
  | cons a as ih =>
    cases a with
    | lit p =>
      simp only [matchAtoms] at h
      by_cases hp : p.isPrefixOf s
      · rw [if_pos hp] at h
        have := ih h
        have h2 : (s.drop p.length).length ≤ s.length := by
          simp [List.length_drop]
        omega
      · rw [if_neg hp] at h
        exact absurd h (by simp)
    | tillGt =>
      simp only [matchAtoms] at h
      cases hdw : s.dropWhile (· != '>') with
      | nil => rw [hdw] at h; exact absurd h (by simp)
      | cons x xs =>
        rw [hdw] at h
        have h1 := length_dropWhile_le (· != '>') s
        rw [hdw] at h1
        have := ih h
        simp only [List.length_cons] at h1
        omega
    | ws =>
      simp only [matchAtoms] at h
      have := ih h
      have h1 := length_dropWhile_le jsIsWs s
      omega
    | optSpanOpen =>
      simp only [matchAtoms] at h
      by_cases hp : spanOpen.isPrefixOf s
      · rw [if_pos hp] at h
        cases hdw : (s.drop 5).dropWhile (· != '>') with
        | nil => rw [hdw] at h; exact absurd h (by simp)
        | cons x xs =>
          rw [hdw] at h
          have h1 := length_dropWhile_le (· != '>') (s.drop 5)
          rw [hdw] at h1
          have h2 : (s.drop 5).length ≤ s.length := by simp [List.length_drop]
          have := ih h
          simp only [List.length_cons] at h1
          omega
      · rw [if_neg hp] at h
        exact ih h
    | optClose =>
      simp only [matchAtoms] at h
      by_cases hp : spanClose.isPrefixOf s
      · rw [if_pos hp] at h
        have := ih h
        have h2 : (s.drop 7).length ≤ s.length := by simp [List.length_drop]
        omega
      · rw [if_neg hp] at h
        exact ih h

/-- Global replacement of an atom pattern (`s.replace(spanRegex, rep)`).
Every pattern used below begins with the nonempty literal `<span`, so a
match always consumes input; the length test only serves termination and
never fails at use sites. -/
def replaceSpanPat (atoms : List HtmAtom) (rep : Str) (s : Str) : Str := go s.length s
where
  go : Nat → Str → Str
  | _, [] => []
  | 0, rest => rest
  | fuel + 1, c :: t =>
    match matchAtoms atoms (c :: t) with
    | some rest =>
      if rest.length < t.length + 1 then rep ++ go fuel rest
      else c :: go fuel t
    | none => c :: go fuel t

/-- `s.replace(regex, rep)` for the span regexes with a string
replacement argument: like `replaceSpanPat` but the inserted text is
`GetSubstitution(rep)` at the match (`pos` tracks the position in the
original string `s`, the matched text is the consumed prefix). -/
def replaceSpanPatSub (atoms : List HtmAtom) (rep : Str) (s : Str) : Str :=
  go s.length 0 s
where
  go : Nat → Nat → Str → Str
  | _, _, [] => []
  | 0, _, rest => rest
  | fuel + 1, pos, c :: t =>
    match matchAtoms atoms (c :: t) with
    | some rest =>
      if rest.length < t.length + 1 then
        getSub ((c :: t).take ((c :: t).length - rest.length)) (s.take pos) rest rep ++
          go fuel (pos + ((c :: t).length - rest.length)) rest
      else c :: go fuel (pos + 1) t
    | none => c :: go fuel (pos + 1) t

def openBraces : Str := [lbrace, lbrace]

def closeBraces : Str := [rbrace, rbrace]

/-- `/<span[^>]*>\{\{<\/span>\s*<span[^>]*>apiKey<\/span>\s*<span[^>]*>\}\}<\/span>/g` -/
def apiKeySpanAtoms : List HtmAtom :=
  [.lit spanOpen, .tillGt, .lit (openBraces ++ spanClose), .ws,
   .lit spanOpen, .tillGt, .lit ("apiKey".toList ++ spanClose), .ws,
   .lit spanOpen, .tillGt, .lit (closeBraces ++ spanClose)]

/-- `/<span[^>]*>\{\{<\/span>(?:<span[^>]*>)?selectedModel(?:<\/span>)?(?:<span[^>]*>)?\.(?:<\/span>)?(?:<span[^>]*>)?FIELD(?:<\/span>)?(?:<span[^>]*>)?\}\}(?:<\/span>)?/g` -/
def modelSpanAtoms (fieldName : Str) : List HtmAtom :=
  [.lit spanOpen, .tillGt, .lit (openBraces ++ spanClose),
   .optSpanOpen, .lit "selectedModel".toList, .optClose,
   .optSpanOpen, .lit ".".toList, .optClose,
   .optSpanOpen, .lit fieldName, .optClose,
   .optSpanOpen, .lit closeBraces, .optClose]

/-- `<span style="color:#98C379">v</span>`, the injected replacement. -/
def injSpan (v : Str) : Str :=
  "<span style=\"color:#98C379\">".toList ++ v ++ spanClose

def phApiKey : Str := openBraces ++ "apiKey".toList ++ closeBraces

def phModelId : Str := openBraces ++ "selectedModel.id".toList ++ closeBraces

def phModelName : Str := openBraces ++ "selectedModel.name".toList ++ closeBraces

def phBatchInput : Str := openBraces ++ "selectedModel.pricing.batch.input".toList ++ closeBraces

def phBatchOutput : Str := openBraces ++ "selectedModel.pricing.batch.output".toList ++ closeBraces

def phRealtimeInput : Str := openBraces ++ "selectedModel.pricing.realtime.input".toList ++ closeBraces

def phRealtimeOutput : Str := openBraces ++ "selectedModel.pricing.realtime.output".toList ++ closeBraces

/-- The replacement chain of `processCodeBlock` applied to the snapshot
`original` (lines 35–93 of ContentInjector.tsx): the API-key block runs
when `apiKey` is truthy, the model block when `selectedModel` is truthy;
the pricing sub-placeholders are plain-text replacements guarded by
`selectedModel.pricing?.batch` and `selectedModel.pricing?.realtime`
(JS property reads on the pricing object, see
`ModelPricingTiers.jsGet`).  Every replacement here passes a *string*
replacement argument to `String.replace`, so ECMAScript interprets `$`
sequences in it (`getSub`). -/
def substituteHtml (apiKey : Option Str) (selectedModel : Option Model)
    (original : Str) : Str :=
  let h1 :=
    match apiKey with
    | some key =>
      replaceSpanPatSub apiKeySpanAtoms (injSpan key)
        (replaceAllSub phApiKey key original)
    | none => original
  match selectedModel with
  | some m =>
    let idVal := m.id
    let nameVal := jsOrStr m.name m.id
    let s1 := replaceAllSub phModelId idVal h1
    let s2 := replaceAllSub phModelName nameVal s1
    let s3 := replaceSpanPatSub (modelSpanAtoms "id".toList) (injSpan idVal) s2
    let s4 := replaceSpanPatSub (modelSpanAtoms "name".toList) (injSpan nameVal) s3
    let s5 :=
      match m.pricing.jsGet "batch".toList with
      | some batchPricing =>
        replaceAllSub phBatchOutput (jsNumToStr batchPricing.output)
          (replaceAllSub phBatchInput (jsNumToStr batchPricing.input) s4)
      | none => s4
    let s6 :=
      match m.pricing.jsGet "realtime".toList with
      | some realtimePricing =>
        replaceAllSub phRealtimeOutput (jsNumToStr realtimePricing.output)
          (replaceAllSub phRealtimeInput (jsNumToStr realtimePricing.input) s5)
      | none => s5
    s6
  | none => h1

/-- A code-bearing element: its current markup and the
`data-original-content` snapshot. -/
structure CodeElem where
  innerHTML : Str
  originalContent : Option Str
deriving DecidableEq, Repr

/-- `processCodeBlock`: capture the snapshot on first visit (a falsy —
missing or empty — stored value is (re)captured, as with
`if (!element.dataset.originalContent)`), bail out if the snapshot is
still falsy, recompute the markup from the snapshot, and write it back
only when it differs. -/
def processCodeBlock (apiKey : Option Str) (selectedModel : Option Model)
    (el : CodeElem) : CodeElem :=
  let original :=
    match el.originalContent with
    | some s => if s.isEmpty then el.innerHTML else s
    | none => el.innerHTML
  if original.isEmpty then { el with originalContent := some original }
  else
    let newHtml := substituteHtml apiKey selectedModel original
    { innerHTML := if newHtml = el.innerHTML then el.innerHTML else newHtml
      originalContent := some original }

end Injector

section ImageRewrite

/-! ## The image filename→CDN-URL rewrite (MarkdownRenderer and the
markdown mirror route, which contain the same loop) -/

/-- Matching of one attachment-filename character, as it behaves inside
`new RegExp("!\\[([^\\]]*)\\]\\(" + filename + "\\)")`: the filename is
interpolated **unescaped**, so `.` is the regex wildcard (any character
except a line terminator) while the other characters occurring in the
filenames modelled here match literally. -/
def fnameCharMatch (fc c : Char) : Bool :=
  if fc = '.' then !(c = '\n' || c = '\r')
  else fc = c

def fnameMatch (fname : Str) : Str → Option Str :=
  fun s =>
    match fname, s with
    | [], rest => some rest
    | _ :: _, [] => none
    | fc :: ft, c :: t => if fnameCharMatch fc c then fnameMatch ft t else none

theorem fnameMatch_some {fname s r : Str} (h : fnameMatch fname s = some r) :
    r.length + fname.length = s.length := by
  induction fname generalizing s with
  | nil =>
    simp only [fnameMatch] at h
    injection h with h
    simp [← h]
  | cons fc ft ih =>
    cases s with
    | nil => simp [fnameMatch] at h
    | cons c t =>
      simp only [fnameMatch] at h
      by_cases hc : fnameCharMatch fc c
      · rw [if_pos hc] at h
        have := ih h
        simp only [List.length_cons]
        omega
      · rw [if_neg hc] at h
        exact absurd h (by simp)

/-- Match `!\[([^\]]*)\]\(FILENAMEPATTERN\)` at the head of `s`,
returning the captured alt text and the rest. -/
def imageLinkAt (fname : Str) (s : Str) : Option (Str × Str) :=
  match expectP "![".toList s with
  | none => none
  | some r1 =>
    let alt := r1.takeWhile (· != ']')
    match expectP "](".toList (r1.dropWhile (· != ']')) with
    | none => none
    | some r3 =>
      match fnameMatch fname r3 with
      | none => none
      | some r4 => (expectP ")".toList r4).map (fun r => (alt, r))

theorem imageLinkAt_some {fname s alt r : Str}
    (h : imageLinkAt fname s = some (alt, r)) : r.length < s.length := by
  unfold imageLinkAt at h
  cases h1 : expectP "![".toList s with
  | none => rw [h1] at h; exact absurd h (by simp)
  | some r1 =>
    rw [h1] at h
    dsimp only at h
    cases h2 : expectP "](".toList (r1.dropWhile (· != ']')) with
    | none => rw [h2] at h; exact absurd h (by simp)
    | some r3 =>
      rw [h2] at h
      dsimp only at h
      cases h3 : fnameMatch fname r3 with
      | none => rw [h3] at h; exact absurd h (by simp)
      | some r4 =>
        rw [h3] at h
        dsimp only at h
        cases h4 : expectP ")".toList r4 with
        | none => rw [h4] at h; exact absurd h (by simp)
        | some r5 =>
          rw [h4] at h
          injection h with h
          have hr : r = r5 := congrArg Prod.snd h.symm
          subst hr
          have q1 := (expectP_some h1).2
          have q2 := (expectP_some h2).2
          have q3 := fnameMatch_some h3
          have q4 := (expectP_some h4).2
          have d1 : (r1.dropWhile (· != ']')).length ≤ r1.length :=
            length_dropWhile_le (· != ']') r1
          have e1 : ("![".toList).length = 2 := rfl
          have e2 : ("](".toList).length = 2 := rfl
          have e3 : (")".toList).length = 1 := rfl
          simp only [e1, e2, e3] at q1 q2 q4
          omega

/-- One `processedContent.replace(regex, "![$1](url)")` pass. -/
def replaceImageRefs (fname url : Str) (s : Str) : Str := go s.length s
where
  go : Nat → Str → Str
  | _, [] => []
  | 0, rest => rest
  | fuel + 1, c :: t =>
    match imageLinkAt fname (c :: t) with
    | some (alt, rest) =>
      "![".toList ++ alt ++ "](".toList ++ url ++ ")".toList ++ go fuel rest
    | none => c :: go fuel t

/-- `new Map(images.filter(img => img.filename).map(img => [img.filename, img]))`:
keep only non-empty filenames; a duplicate key keeps its first position
but takes the last value (JS `Map` semantics); iteration is in insertion
order. -/
def buildImageMap (images : List (Str × Str)) : List (Str × Str) :=
  (images.filter (fun i => !i.1.isEmpty)).foldl
    (fun m e =>
      if m.any (fun x => x.1 == e.1) then
        m.map (fun x => if x.1 == e.1 then (x.1, e.2) else x)
      else m ++ [e])
    []

/-- The full image-rewrite step (`imageMap.forEach(...)`): one global
replace pass per attached image, in map order. -/
def rewriteImages (images : List (Str × Str)) (content : Str) : Str :=
  (buildImageMap images).foldl (fun acc e => replaceImageRefs e.1 e.2 acc) content

end ImageRewrite

section Handlebars

/-! ## `src/lib/handlebars.ts` (templateMarkdown) -/

/-- JS `\w`. -/
def wordChar (c : Char) : Bool := c.isAlphanum || c = '_'

/-- The `(\.\w+)*` suffix of the client-placeholder escape regex:
greedily consume dot-plus-word-run groups; return (consumed, rest).
Deterministic: a group starts with `.` followed by a word character, word
runs are maximal, and giving back characters never helps because after
the group the regex needs `}}` or `.`, neither of which is a word
character. -/
def dotSuffixes (s : Str) : Str × Str := go s.length s
where
  go : Nat → Str → Str × Str
  | _, [] => ([], [])
  | 0, rest => ([], rest)
  | fuel + 1, c :: rest =>
    if c = '.' ∧ ¬(rest.takeWhile wordChar).isEmpty then
      (c :: (rest.takeWhile wordChar ++ (go fuel (rest.dropWhile wordChar)).1),
       (go fuel (rest.dropWhile wordChar)).2)
    else ([], c :: rest)

theorem dotSuffixes_go_append : ∀ (fuel : Nat) (s : Str) (_hf : s.length ≤ fuel),
    (dotSuffixes.go fuel s).1 ++ (dotSuffixes.go fuel s).2 = s
  | _, [], _ => by simp [dotSuffixes.go]
  | 0, c :: rest, hf => by simp at hf
  | fuel + 1, c :: rest, hf => by
    by_cases hc : c = '.' ∧ ¬(rest.takeWhile wordChar).isEmpty
    · simp only [dotSuffixes.go]
      rw [if_pos hc]
      have hfl : (rest.dropWhile wordChar).length ≤ fuel := by
        have := length_dropWhile_le wordChar rest
        simp only [List.length_cons] at hf
        omega
      have ih := dotSuffixes_go_append fuel (rest.dropWhile wordChar) hfl
      simp only [List.cons_append, List.append_assoc, ih]
      rw [List.takeWhile_append_dropWhile]
    · simp only [dotSuffixes.go]
      rw [if_neg hc]
      simp

theorem dotSuffixes_append (s : Str) : (dotSuffixes s).1 ++ (dotSuffixes s).2 = s :=
  dotSuffixes_go_append s.length s (Nat.le_refl _)

/-- Match the whole client-placeholder regex
`\{\{NAME(\.\w+)*\}\}` at the head of `s`; return the matched text
and the rest. -/
def matchClient (name : Str) (s : Str) : Option (Str × Str) :=
  if (openBraces ++ name).isPrefixOf s then
    if closeBraces.isPrefixOf (dotSuffixes (s.drop (2 + name.length))).2 then
      some (openBraces ++ name ++ (dotSuffixes (s.drop (2 + name.length))).1 ++ closeBraces,
            ((dotSuffixes (s.drop (2 + name.length))).2).drop 2)
    else none
  else none

/-- The internal marker `__PLACEHOLDER_${placeholderMap.size}__`. -/
def markerStr (k : Nat) : Str :=
  "__PLACEHOLDER_".toList ++ natToStr k ++ "__".toList

theorem matchClient_some {name s m r : Str} (h : matchClient name s = some (m, r)) :
    s = m ++ r ∧ name.length + 4 ≤ m.length := by
  unfold matchClient at h
  by_cases hp : (openBraces ++ name).isPrefixOf s
  · rw [if_pos hp] at h
    by_cases hc : closeBraces.isPrefixOf ((dotSuffixes (s.drop (2 + name.length))).2)
    · rw [if_pos hc] at h
      injection h with h
      have hm : m = openBraces ++ name ++ (dotSuffixes (s.drop (2 + name.length))).1 ++ closeBraces :=
        (congrArg Prod.fst h).symm
      have hr : r = ((dotSuffixes (s.drop (2 + name.length))).2).drop 2 :=
        (congrArg Prod.snd h).symm
      obtain ⟨t0, ht0⟩ := List.isPrefixOf_iff_prefix.mp hp
      obtain ⟨t1, ht1⟩ := List.isPrefixOf_iff_prefix.mp hc
      have hlen0 : (openBraces ++ name).length = 2 + name.length := by
        simp only [openBraces, List.length_append, List.length_cons, List.length_nil]
      have hdrop : s.drop (2 + name.length) = t0 := by
        rw [← ht0, ← hlen0, List.drop_left]
      have hds := dotSuffixes_append (s.drop (2 + name.length))
      constructor
      · rw [hm, hr, ← ht1]
        have h2 : (closeBraces ++ t1).drop 2 = t1 := by
          have hcb : closeBraces.length = 2 := rfl
          rw [← hcb, List.drop_left]
        rw [h2]
        calc s = (openBraces ++ name) ++ s.drop (2 + name.length) := by
              rw [hdrop, ht0]
          _ = (openBraces ++ name) ++
                ((dotSuffixes (s.drop (2 + name.length))).1 ++
                  (dotSuffixes (s.drop (2 + name.length))).2) := by rw [hds]
          _ = (openBraces ++ name) ++
                ((dotSuffixes (s.drop (2 + name.length))).1 ++ (closeBraces ++ t1)) := by
              rw [ht1]
          _ = openBraces ++ name ++ (dotSuffixes (s.drop (2 + name.length))).1 ++
                closeBraces ++ t1 := by simp [List.append_assoc]
      · rw [hm]
        simp only [List.length_append]
        have h0 : openBraces.length = 2 := rfl
        have h1 : closeBraces.length = 2 := rfl
        omega
    · rw [if_neg hc] at h
      exact absurd h (by simp)
  · rw [if_neg hp] at h
    exact absurd h (by simp)

/-- One escaping pass of `templateMarkdown` for one reserved client
identifier: `processedContent.replace(regex, match => marker)`, where the
running counter is `placeholderMap.size`; returns the marked text and the
(key index, original text) pairs appended to the map by this pass. -/
def escapePass (name : Str) (s : Str) (k : Nat) : Str × List (Nat × Str) :=
  go s.length s k
where
  go : Nat → Str → Nat → Str × List (Nat × Str)
  | _, [], _ => ([], [])
  | 0, rest, _ => (rest, [])
  | fuel + 1, c :: t, k =>
    match matchClient name (c :: t) with
    | some (m, rest) =>
      ((markerStr k) ++ (go fuel rest (k + 1)).1,
        (k, m) :: (go fuel rest (k + 1)).2)
    | none =>
      (c :: (go fuel t k).1, (go fuel t k).2)

/-- The escaping stage of `templateMarkdown`: one pass per reserved
client identifier, `apiKey` first, then `selectedModel` over the result,
the marker counter continuing across the passes. -/
def escapeClient (content : Str) : Str × List (Nat × Str) :=
  ((escapePass "selectedModel".toList (escapePass "apiKey".toList content 0).1
      (escapePass "apiKey".toList content 0).2.length).1,
   (escapePass "apiKey".toList content 0).2 ++
     (escapePass "selectedModel".toList (escapePass "apiKey".toList content 0).1
       (escapePass "apiKey".toList content 0).2.length).2)

/-- The restore stage: `placeholderMap.forEach((original, key) =>
result = result.replace(new RegExp(key, 'g'), original))` — the marker
key contains only word characters, so the dynamically built regex is a
literal, and the original placeholder text contains no `$`, so it is a
literal replacement. -/
def restoreClient (placeholderMap : List (Nat × Str)) (s : Str) : Str :=
  placeholderMap.foldl (fun acc e => replaceAllLit (markerStr e.1) e.2 acc) s

/-- `TemplateContext` from handlebars.ts. -/
structure TemplateContext where
  models : List Model := []
  selectedModel : Option Model := none
  apiKey : Option Str := none
deriving Repr

/-- `ModelsResponse` from models.ts. -/
structure ModelsResponse where
  models : List Model
  fetchedAt : Str := []
deriving Repr

/-- `buildTemplateContext` from handlebars.ts. -/
def buildTemplateContext (modelsResponse : ModelsResponse) : TemplateContext :=
  { models := modelsResponse.models, selectedModel := none, apiKey := none }

/-- `templateMarkdown`, parameterised by the template engine
(`Handlebars.compile` + execution, an external library that may throw:
a thrown error is the `.error` case and is caught by the surrounding
`try`): fast path when the content has no `{{`, escape the reserved
client placeholders, run the engine on the real context, restore the
placeholders; on any engine error return the original content. -/
def templateMarkdownWith (engine : List Model → Str → Except String Str)
    (content : Str) (context : TemplateContext) : Str :=
  if content.isEmpty || !occursIn openBraces content then content
  else
    match engine context.models (escapeClient content).1 with
    | .ok result => restoreClient (escapeClient content).2 result
    | .error _ => content

/-- Modelled from the spec: dotted property access on the `{{#each}}`
loop variable (`{{this.id}}`, `{{this.name}}`), the part of the external
Handlebars engine the loop bodies here use. -/
def renderEachBody (m : Model) (body : Str) : Str :=
  replaceAllLit (openBraces ++ "this.name".toList ++ closeBraces) m.name
    (replaceAllLit (openBraces ++ "this.id".toList ++ closeBraces) m.id body)

def eachCloseTag : Str := openBraces ++ "/each".toList ++ closeBraces

/-- Modelled from the spec: the external Handlebars engine (with
`noEscape`), restricted to what the spec requires of it here — literal
text is copied through verbatim, `{{#each models}}body{{/each}}` renders
`body` once per model with `this` bound to the model, any other mustache
expression renders its (absent) value as empty text, and a malformed
template (an unclosed expression or block) is a compile error. -/
def hbRender (ms : List Model) (s : Str) : Except String Str := go s.length s
where
  go : Nat → Str → Except String Str
  | _, [] => .ok []
  | 0, _ => .error "out of fuel"
  | fuel + 1, c :: t =>
    if openBraces.isPrefixOf (c :: t) then
      if ("#each ".toList).isPrefixOf ((c :: t).drop 2) then
        match splitOnSub closeBraces ((c :: t).drop 8) with
        | none => .error "unclosed each tag"
        | some (path, afterTag) =>
          match splitOnSub eachCloseTag afterTag with
          | none => .error "unclosed each block"
          | some (body, rest) =>
            match go fuel rest with
            | .ok tailR =>
              .ok (((if path = "models".toList then ms else []).map
                      (fun m => renderEachBody m body)).flatten ++ tailR)
            | .error e => .error e
      else
        match splitOnSub closeBraces ((c :: t).drop 2) with
        | none => .error "unclosed expression"
        | some (_, rest) =>
          match go fuel rest with
          | .ok tailR => .ok tailR
          | .error e => .error e
    else
      match go fuel t with
      | .ok tailR => .ok (c :: tailR)
      | .error e => .error e

/-- `templateMarkdown` with the modelled engine. -/
def templateMarkdown (content : Str) (context : TemplateContext) : Str :=
  templateMarkdownWith hbRender content context

end Handlebars

section Claims

/-! ## Concrete inputs used by the claims -/

/-- The first document of the spec's search-scoring example. -/
def gettingStartedDoc : DocSearchIndexItem :=
  { _id := "1".toList
    title := "Getting Started".toList
    description := some []
    body := some [] }

/-- The second document of the spec's search-scoring example. -/
def authGuideDoc : DocSearchIndexItem :=
  { _id := "2".toList
    title := "Authentication Guide".toList
    description := some []
    body := some ("uses getting started tokens".toList) }

/-- A raw model with a 1h-window batch tariff and a realtime tariff. -/
def rawModelWithBatch : RawModel :=
  { model_name := "m1".toList
    aliasId := "alias-1".toList
    tariffs := [
      { input_price_per_token := "0.5".toList
        output_price_per_token := "1.5".toList
        api_key_purpose := "batch".toList
        completion_window := some ("1h".toList) },
      { input_price_per_token := "2.5".toList
        output_price_per_token := "3.5".toList
        api_key_purpose := "realtime".toList } ] }

def modelWithBatch : Model :=
  (transformModels [rawModelWithBatch]).headD { id := [], name := [] }

/-! ## C3 -/

/-- C3: the claim says the first document of the example index scores 120
for the query "getting started"; in the code the scoring table is
strictly additive and an exact title match also satisfies the prefix
(+80) and containment (+60) conditions, so the score is 260, not 120. -/
theorem claim3_counterexample :
    rankDoc gettingStartedDoc ("getting started".toList) ≠ 120 := by decide

/-- C3 (amended): for the example index and the query "getting started",
the first document scores 260 (120 + 80 + 60: exact title match also
counts as prefix and containment), the second scores 20 (body contains
the query), and `searchDocs` ranks the first document first and the
second document second. -/
theorem claim3_amended :
    rankDoc gettingStartedDoc ("getting started".toList) = 260
    ∧ rankDoc authGuideDoc ("getting started".toList) = 20
    ∧ (searchDocs [gettingStartedDoc, authGuideDoc] ("getting started".toList)).map
        (fun r => (r.title, r.score)) =
      [("Getting Started".toList, 260), ("Authentication Guide".toList, 20)] := by
  decide

/-! ## C10 -/

/-- C10: `getDefaultModel` returns `none` on the empty list; on a
non-empty list it returns the (first) model whose id is the preferred
default id when one exists, otherwise the first element, and in
particular never `none`. -/
theorem claim10_getDefaultModel (ms : List Model) (h : ms ≠ []) :
    getDefaultModel [] = none
    ∧ ((∃ m ∈ ms, m.id = DEFAULT_MODEL_ID) →
        getDefaultModel ms = ms.find? (fun m => m.id == DEFAULT_MODEL_ID))
    ∧ ((∀ m ∈ ms, m.id ≠ DEFAULT_MODEL_ID) → getDefaultModel ms = ms.head?)
    ∧ (getDefaultModel ms).isSome = true := by
  have hne : ms.isEmpty = false := by
    cases ms with
    | nil => exact absurd rfl h
    | cons a t => rfl
  refine ⟨by rfl, ?_, ?_, ?_⟩
  · intro hex
    unfold getDefaultModel
    rw [hne]
    simp only [Bool.false_eq_true, if_false]
    cases hf : ms.find? (fun m => m.id == DEFAULT_MODEL_ID) with
    | some d => rfl
    | none =>
      obtain ⟨m, hm, hid⟩ := hex
      have := List.find?_eq_none.mp hf m hm
      simp [hid] at this
  · intro hall
    unfold getDefaultModel
    rw [hne]
    simp only [Bool.false_eq_true, if_false]
    cases hf : ms.find? (fun m => m.id == DEFAULT_MODEL_ID) with
    | some d =>
      have hmem := List.mem_of_find?_eq_some hf
      have hpred := List.find?_some hf
      simp only [beq_iff_eq] at hpred
      exact absurd hpred (hall d hmem)
    | none => rfl
  · unfold getDefaultModel
    rw [hne]
    simp only [Bool.false_eq_true, if_false]
    cases hf : ms.find? (fun m => m.id == DEFAULT_MODEL_ID) with
    | some d => rfl
    | none =>
      cases ms with
      | nil => exact absurd rfl h
      | cons a t => rfl

def qwenDefaultModel : Model := { id := DEFAULT_MODEL_ID, name := "Qwen".toList }

def otherModel : Model := { id := "other".toList, name := "Other".toList }

/-- C10 witness: `claim10_getDefaultModel` applied to concrete lists. -/
theorem claim10_getDefaultModel_witness :
    (getDefaultModel [otherModel, qwenDefaultModel] =
      [otherModel, qwenDefaultModel].find? (fun m => m.id == DEFAULT_MODEL_ID))
    ∧ (getDefaultModel [otherModel] = [otherModel].head?)
    ∧ (getDefaultModel [otherModel, qwenDefaultModel]).isSome = true :=
  ⟨(claim10_getDefaultModel [otherModel, qwenDefaultModel] (by simp)).2.1
      ⟨qwenDefaultModel, by simp, by rfl⟩,
   (claim10_getDefaultModel [otherModel] (by simp)).2.2.1 (by decide),
   (claim10_getDefaultModel [otherModel, qwenDefaultModel] (by simp)).2.2.2⟩

/-! ## C7 -/

/-- C7: each pricing tier with no matching tariff is transformed to
`null` (never zero, never an error), and both price-formatting helpers
return "N/A" on any non-numeric value instead of throwing. -/
theorem claim7_null_tiers_and_na (r : RawModel) (v : JsVal) :
    (r.tariffs.find? isBatch1hTariff = none →
      (transformModels [r]).map (fun m => m.pricing.batch1h) = [none])
    ∧ (r.tariffs.find? isBatch24hTariff = none →
      (transformModels [r]).map (fun m => m.pricing.batch24h) = [none])
    ∧ (r.tariffs.find? isRealtimeTariff = none →
      (transformModels [r]).map (fun m => m.pricing.realtime) = [none])
    ∧ (v.isNumber = false →
      formatPrice v = "N/A".toList ∧ formatPricePer1M v = "N/A".toList) := by
  refine ⟨?_, ?_, ?_, ?_⟩
  · intro h
    simp [transformModels, h]
  · intro h
    simp [transformModels, h]
  · intro h
    simp [transformModels, h]
  · intro hv
    cases v with
    | num n => simp [JsVal.isNumber] at hv
    | str s => exact ⟨rfl, rfl⟩
    | nullV => exact ⟨rfl, rfl⟩
    | undef => exact ⟨rfl, rfl⟩

/-- A raw model with no tariffs at all. -/
def rawModelNoTariffs : RawModel := { model_name := "m0".toList }

/-- C7 witness: `claim7_null_tiers_and_na` at a tariff-free raw model and
the `null` value. -/
theorem claim7_null_tiers_and_na_witness :
    (transformModels [rawModelNoTariffs]).map (fun m => m.pricing.batch1h) = [none]
    ∧ (transformModels [rawModelNoTariffs]).map (fun m => m.pricing.batch24h) = [none]
    ∧ (transformModels [rawModelNoTariffs]).map (fun m => m.pricing.realtime) = [none]
    ∧ formatPrice JsVal.nullV = "N/A".toList
    ∧ formatPricePer1M JsVal.nullV = "N/A".toList :=
  ⟨(claim7_null_tiers_and_na rawModelNoTariffs JsVal.nullV).1 (by rfl),
   (claim7_null_tiers_and_na rawModelNoTariffs JsVal.nullV).2.1 (by rfl),
   (claim7_null_tiers_and_na rawModelNoTariffs JsVal.nullV).2.2.1 (by rfl),
   ((claim7_null_tiers_and_na rawModelNoTariffs JsVal.nullV).2.2.2 (by rfl)).1,
   ((claim7_null_tiers_and_na rawModelNoTariffs JsVal.nullV).2.2.2 (by rfl)).2⟩

/-! ## C2 -/

theorem if_write_back (newHtml cur : Str) :
    (if newHtml = cur then cur else newHtml) = newHtml := by
  by_cases h : newHtml = cur
  · rw [if_pos h, h]
  · rw [if_neg h]

theorem substituteHtml_none_none (s : Str) : substituteHtml none none s = s := rfl

/-- C2: for every snapshot S and substitution state (apiKey,
selectedModel), `processCodeBlock` is idempotent — a second run under the
same state returns the element unchanged — and reversible — a run under
the all-null state restores the snapshot byte-for-byte, because the
markup is always recomputed from the stored original-content snapshot. -/
theorem claim2_idempotent_reversible (apiKey : Option Str)
    (selectedModel : Option Model) (S : Str) :
    processCodeBlock apiKey selectedModel
        (processCodeBlock apiKey selectedModel ⟨S, none⟩)
      = processCodeBlock apiKey selectedModel ⟨S, none⟩
    ∧ (processCodeBlock none none
        (processCodeBlock apiKey selectedModel ⟨S, none⟩)).innerHTML = S := by
  by_cases hS : S.isEmpty
  · have hSnil : S = [] := List.isEmpty_iff.mp hS
    subst hSnil
    exact ⟨rfl, rfl⟩
  · have hstep : processCodeBlock apiKey selectedModel ⟨S, none⟩ =
        ⟨substituteHtml apiKey selectedModel S, some S⟩ := by
      unfold processCodeBlock
      simp only [hS, Bool.false_eq_true, if_false]
      rw [if_write_back]
    rw [hstep]
    refine ⟨?_, ?_⟩ <;>
      · unfold processCodeBlock
        simp [hS, substituteHtml_none_none, if_write_back]

/-! ## C4 -/

/-- C4 (code bug): `processCodeBlock` reads `selectedModel.pricing?.batch`
(and `.realtime`), but the pricing object produced by `transformModels` /
`/api/models` — the shape `ConfigProvider`'s selected model has, as
`ModelSelector`'s reads of `pricing?.batch24h || pricing?.batch1h`
confirm — has only the keys `batch1h`, `batch24h`, `realtime`.  So for a
selected model that does have batch pricing (a 1h batch tariff), the
batch pricing placeholder is left untouched, although ContentInjector's
own documentation lists `{{selectedModel.pricing.batch.input}}` as a
supported placeholder; the realtime placeholder, whose key does exist,
is replaced. -/
theorem claim4_batch_placeholder_dead :
    modelWithBatch.pricing.batch1h.isSome = true
    ∧ substituteHtml none (some modelWithBatch) phBatchInput = phBatchInput
    ∧ substituteHtml none (some modelWithBatch) phBatchOutput = phBatchOutput
    ∧ substituteHtml none (some modelWithBatch) phRealtimeInput = "2.5".toList
    ∧ substituteHtml none (some modelWithBatch) phRealtimeOutput = "3.5".toList := by
  decide

/-! ## C6 -/

/-- C6: whenever the template engine (compilation or expansion) fails
with any error, `templateMarkdown` returns the original input string
unchanged — never a partially expanded string; and being a total
function, it never throws. -/
theorem claim6_error_fallback (engine : List Model → Str → Except String Str)
    (content : Str) (context : TemplateContext)
    (h : ∃ e, engine context.models (escapeClient content).1 = .error e) :
    templateMarkdownWith engine content context = content := by
  unfold templateMarkdownWith
  by_cases hfast : content.isEmpty || !occursIn openBraces content
  · rw [if_pos hfast]
  · rw [if_neg hfast]
    obtain ⟨e, he⟩ := h
    rw [he]

/-- C6 witness: an engine that always throws, on a template-bearing
input. -/
theorem claim6_error_fallback_witness :
    templateMarkdownWith (fun _ _ => .error "Handlebars templating error")
      phApiKey {} = phApiKey :=
  claim6_error_fallback (fun _ _ => .error "Handlebars templating error")
    phApiKey {} ⟨"Handlebars templating error", rfl⟩

/-! ## C9 -/

/-- C9 (code bug): the attachment filename is interpolated into
`new RegExp("!\\[([^\\]]*)\\]\\(" + filename + "\\)", "g")` without
regex escaping, so `.` in a filename is a wildcard: matching is not
exact-string.  The exact reference `![Diagram](diagram.png)` is rewritten
as documented, but the reference `![x](aZpng)`, whose target is not an
attached filename, is rewritten too (its target matches the pattern
`a.png`), contradicting the claim that non-matching targets are left
unchanged; a target that differs at a non-wildcard position is left
alone. -/
theorem claim9_regex_not_literal :
    rewriteImages [("diagram.png".toList, "https://cdn/x.png".toList)]
        ("See ![Diagram](diagram.png) here".toList)
      = "See ![Diagram](https://cdn/x.png) here".toList
    ∧ rewriteImages [("a.png".toList, "u".toList)] ("![x](aZpng)".toList)
      = "![x](u)".toList
    ∧ rewriteImages [("a.png".toList, "u".toList)] ("![x](other.png)".toList)
      = "![x](other.png)".toList := by decide

/-! ## C8 -/

theorem mem_insertByScore {z x : DocSearchResult} {l : List DocSearchResult} :
    z ∈ insertByScore x l ↔ z = x ∨ z ∈ l := by
  induction l with
  | nil => simp [insertByScore]
  | cons y ys ih =>
    rw [insertByScore]
    by_cases hxy : x.score ≥ y.score
    · rw [if_pos hxy]
      simp [or_comm, or_left_comm]
    · rw [if_neg hxy]
      simp only [List.mem_cons, ih]
      tauto

theorem pairwise_insertByScore {x : DocSearchResult} {l : List DocSearchResult}
    (h : l.Pairwise (fun a b => b.score ≤ a.score)) :
    (insertByScore x l).Pairwise (fun a b => b.score ≤ a.score) := by
  induction l with
  | nil => simp [insertByScore]
  | cons y ys ih =>
    rw [List.pairwise_cons] at h
    rw [insertByScore]
    by_cases hxy : x.score ≥ y.score
    · rw [if_pos hxy]
      refine List.Pairwise.cons ?_ (List.pairwise_cons.mpr h)
      intro z hz
      rcases List.mem_cons.mp hz with hz | hz
      · subst hz
        exact hxy
      · exact Nat.le_trans (h.1 z hz) hxy
    · rw [if_neg hxy]
      refine List.Pairwise.cons ?_ (ih h.2)
      intro z hz
      rcases mem_insertByScore.mp hz with hz | hz
      · subst hz
        omega
      · exact h.1 z hz

theorem pairwise_sortByScoreDesc (l : List DocSearchResult) :
    (sortByScoreDesc l).Pairwise (fun a b => b.score ≤ a.score) := by
  induction l with
  | nil => simp [sortByScoreDesc]
  | cons x xs ih => exact pairwise_insertByScore ih

theorem filter_insertByScore (x : DocSearchResult) (l : List DocSearchResult)
    (s : Nat) :
    (insertByScore x l).filter (fun r => r.score == s) =
      if x.score == s then x :: l.filter (fun r => r.score == s)
      else l.filter (fun r => r.score == s) := by
  induction l with
  | nil =>
    by_cases hx : x.score == s <;> simp [insertByScore, List.filter_cons, hx]
  | cons y ys ih =>
    rw [insertByScore]
    by_cases hxy : x.score ≥ y.score
    · rw [if_pos hxy]
      simp only [List.filter_cons]
    · rw [if_neg hxy]
      simp only [List.filter_cons]
      rw [ih]
      by_cases hy : y.score == s
      · by_cases hx : x.score == s
        · exfalso
          have h1 : x.score = s := beq_iff_eq.mp hx
          have h2 : y.score = s := beq_iff_eq.mp hy
          omega
        · simp [hx, hy, List.filter_cons]
      · by_cases hx : x.score == s <;> simp [hx, hy, List.filter_cons]

theorem filter_sortByScoreDesc (l : List DocSearchResult) (s : Nat) :
    (sortByScoreDesc l).filter (fun r => r.score == s) =
      l.filter (fun r => r.score == s) := by
  induction l with
  | nil => rfl
  | cons x xs ih =>
    rw [sortByScoreDesc, filter_insertByScore, ih]
    simp only [List.filter_cons]

/-- C8: `searchDocs` returns results in non-increasing score order, ties
keeping the relative order of the (filtered, score-annotated) input list
— the equal-score subsequence of the output is a prefix of the
equal-score subsequence of the input —, returns at most 20 results, and
the HTTP route applies the caller limit only on top of that cap, so its
result length is at most `min limit 20`. -/
theorem claim8_order_stability_cap (docs allDocs : List DocSearchIndexItem)
    (query : Str) (q productSlug : Option Str) (limitParam : Option Int) :
    (searchDocs docs query).Pairwise (fun a b => b.score ≤ a.score)
    ∧ (searchDocs docs query).length ≤ MAX_RESULTS
    ∧ (∀ s, (searchDocs docs query).filter (fun r => r.score == s) <+:
        (scoredResults docs (normalize query)).filter (fun r => r.score == s))
    ∧ (searchRoute allDocs q productSlug limitParam).length ≤
        min (searchRouteLimit limitParam).toNat MAX_RESULTS := by
  have hsd : ∀ ds qy, (searchDocs ds qy).length ≤ MAX_RESULTS := by
    intro ds qy
    unfold searchDocs
    by_cases hq : (normalize qy).isEmpty
    · simp [hq]
    · simp only [hq, Bool.false_eq_true, if_false]
      exact List.length_take_le _ _
  refine ⟨?_, hsd docs query, ?_, ?_⟩
  · unfold searchDocs
    by_cases hq : (normalize query).isEmpty
    · simp [hq]
    · simp only [hq, Bool.false_eq_true, if_false]
      exact (pairwise_sortByScoreDesc _).sublist (List.take_sublist _ _)
  · intro s
    unfold searchDocs
    by_cases hq : (normalize query).isEmpty
    · simp [hq]
    · simp only [hq, Bool.false_eq_true, if_false]
      have h1 : (sortByScoreDesc (scoredResults docs (normalize query))).take MAX_RESULTS <+:
          sortByScoreDesc (scoredResults docs (normalize query)) :=
        List.take_prefix _ _
      have h2 := h1.filter (fun r => r.score == s)
      rwa [filter_sortByScoreDesc] at h2
  · unfold searchRoute
    by_cases hq : (trimStr (q.getD [])).isEmpty
    · simp [hq]
    · simp only [hq, Bool.false_eq_true, if_false]
      rw [List.length_map]
      have h1 := List.length_take_le (searchRouteLimit limitParam).toNat
        (searchDocs (if (trimStr (productSlug.getD [])).isEmpty then allDocs
          else allDocs.filter (fun d => d.productSlug == trimStr (productSlug.getD [])))
          (trimStr (q.getD [])))
      have h2 := hsd (if (trimStr (productSlug.getD [])).isEmpty then allDocs
          else allDocs.filter (fun d => d.productSlug == trimStr (productSlug.getD [])))
        (trimStr (q.getD []))
      have h3 := List.length_take (searchRouteLimit limitParam).toNat
        (searchDocs (if (trimStr (productSlug.getD [])).isEmpty then allDocs
          else allDocs.filter (fun d => d.productSlug == trimStr (productSlug.getD [])))
          (trimStr (q.getD [])))
      omega

/-! ## C5: machinery -/

/-- Both braces absent. -/
def braceFree (s : Str) : Prop := lbrace ∉ s ∧ rbrace ∉ s

theorem jsIsWs_not_special {c : Char} (h : jsIsWs c = true) :
    c ≠ lbrace ∧ c ≠ rbrace ∧ c ≠ '<' := by
  simp only [jsIsWs, Bool.or_eq_true, decide_eq_true_eq] at h
  rcases h with ((((h | h) | h) | h) | h) | h <;> subst h <;>
    refine ⟨by decide, by decide, by decide⟩

theorem ws_braceFree {w : Str} (h : w.all jsIsWs = true) : braceFree w := by
  constructor <;> intro hmem <;>
    exact absurd rfl (by
      have := (List.all_eq_true.mp h) _ hmem
      have h2 := jsIsWs_not_special this
      first
      | exact h2.1
      | exact h2.2.1)

theorem isPrefixOf_head_false {h c : Char} {p' s : Str} (hne : c ≠ h) :
    (h :: p').isPrefixOf (c :: s) = false := by
  simp [List.isPrefixOf, Ne.symm hne]

/-- Occurrences of a pattern starting with `h` skip over text without
`h`. -/
theorem occursIn_append_of_head_notMem {h : Char} {q X Z : Str}
    (hX : h ∉ X) : occursIn (h :: q) (X ++ Z) = occursIn (h :: q) Z := by
  induction X with
  | nil => rfl
  | cons c t ih =>
    have hc : c ≠ h := fun hch => hX (hch ▸ List.mem_cons_self c t)
    have ht : h ∉ t := fun hmem => hX (List.mem_cons_of_mem c hmem)
    simp only [List.cons_append, occursIn, isPrefixOf_head_false hc,
      Bool.false_or]
    exact ih ht

theorem occursIn_false_of_head_notMem {h : Char} {q s : Str}
    (hs : h ∉ s) : occursIn (h :: q) s = false := by
  have := occursIn_append_of_head_notMem (q := q) (Z := []) hs
  rw [List.append_nil] at this
  rw [this]
  rfl

theorem occursIn_cons_false {pat : Str} {c : Char} {t : Str}
    (h : occursIn pat (c :: t) = false) : occursIn pat t = false := by
  simp only [occursIn, Bool.or_eq_false_iff] at h
  exact h.2

/-- A pattern that does not occur is never replaced. -/
theorem replaceAllLit_go_id {pat rep : Str} : ∀ (fuel : Nat) (s : Str),
    occursIn pat s = false → replaceAllLit.go pat rep fuel s = s
  | _, [], _ => by simp [replaceAllLit.go]
  | 0, c :: t, _ => by simp [replaceAllLit.go]
  | fuel + 1, c :: t, hocc => by
    have hnp : pat.isPrefixOf (c :: t) = false := by
      simp only [occursIn, Bool.or_eq_false_iff] at hocc
      exact hocc.1
    rw [replaceAllLit.go, if_neg (by simp [hnp])]
    rw [replaceAllLit_go_id fuel t (occursIn_cons_false hocc)]

theorem replaceAllLit_id {pat rep s : Str} (h : occursIn pat s = false) :
    replaceAllLit pat rep s = s :=
  replaceAllLit_go_id s.length s h

/-- The output always contains the pattern it is built around. -/
theorem occursIn_append_self : ∀ (X p Y : Str), occursIn p (X ++ (p ++ Y)) = true
  | [], p, Y => by
    cases p with
    | nil =>
      cases Y with
      | nil => rfl
      | cons y ys => simp [occursIn, List.isPrefixOf]
    | cons h p' =>
      simp only [List.nil_append, occursIn, Bool.or_eq_true]
      left
      exact List.isPrefixOf_iff_prefix.mpr (List.prefix_append _ _)
  | c :: t, p, Y => by
    simp only [List.cons_append, occursIn, Bool.or_eq_true]
    right
    exact occursIn_append_self t p Y

/-- A successful atom match only moves to suffixes of the input. -/
theorem matchAtoms_suffix {atoms : List HtmAtom} {s r : Str}
    (h : matchAtoms atoms s = some r) : r <:+ s := by
  induction atoms generalizing s with
  | nil =>
    simp only [matchAtoms] at h
    injection h with h
    exact h ▸ List.suffix_refl _
  | cons a as ih =>
    cases a with
    | lit p =>
      simp only [matchAtoms] at h
      by_cases hp : p.isPrefixOf s
      · rw [if_pos hp] at h
        exact (ih h).trans (List.drop_suffix _ _)
      · rw [if_neg hp] at h
        exact absurd h (by simp)
    | tillGt =>
      simp only [matchAtoms] at h
      cases hdw : s.dropWhile (· != '>') with
      | nil => rw [hdw] at h; exact absurd h (by simp)
      | cons x xs =>
        rw [hdw] at h
        have h1 : (x :: xs) <:+ s := hdw ▸ List.dropWhile_suffix _
        exact (ih h).trans ((List.suffix_cons x xs).trans h1)
    | ws =>
      simp only [matchAtoms] at h
      exact (ih h).trans (List.dropWhile_suffix _)
    | optSpanOpen =>
      simp only [matchAtoms] at h
      by_cases hp : spanOpen.isPrefixOf s
      · rw [if_pos hp] at h
        cases hdw : (s.drop 5).dropWhile (· != '>') with
        | nil => rw [hdw] at h; exact absurd h (by simp)
        | cons x xs =>
          rw [hdw] at h
          have h1 : (x :: xs) <:+ s.drop 5 := hdw ▸ List.dropWhile_suffix _
          exact (ih h).trans (((List.suffix_cons x xs).trans h1).trans
            (List.drop_suffix _ _))
      · rw [if_neg hp] at h
        exact ih h
    | optClose =>
      simp only [matchAtoms] at h
      by_cases hp : spanClose.isPrefixOf s
      · rw [if_pos hp] at h
        exact (ih h).trans (List.drop_suffix _ _)
      · rw [if_neg hp] at h
        exact ih h

/-- Every character of a matched literal atom comes from the input. -/
theorem matchAtoms_lit_mem {atoms : List HtmAtom} {s r p : Str} {c : Char}
    (h : matchAtoms atoms s = some r) (hp : HtmAtom.lit p ∈ atoms)
    (hc : c ∈ p) : c ∈ s := by
  induction atoms generalizing s with
  | nil => exact absurd hp (by simp)
  | cons a as ih =>
    rcases List.mem_cons.mp hp with hpa | hpas
    · subst hpa
      simp only [matchAtoms] at h
      by_cases hpre : p.isPrefixOf s
      · exact (List.isPrefixOf_iff_prefix.mp hpre).subset hc
      · rw [if_neg hpre] at h
        exact absurd h (by simp)
    · cases a with
      | lit q =>
        simp only [matchAtoms] at h
        by_cases hpre : q.isPrefixOf s
        · rw [if_pos hpre] at h
          exact (List.drop_suffix q.length s).subset (ih h hpas)
        · rw [if_neg hpre] at h
          exact absurd h (by simp)
      | tillGt =>
        simp only [matchAtoms] at h
        cases hdw : s.dropWhile (· != '>') with
        | nil => rw [hdw] at h; exact absurd h (by simp)
        | cons x xs =>
          rw [hdw] at h
          have h1 : (x :: xs) <:+ s := hdw ▸ List.dropWhile_suffix _
          exact h1.subset ((List.suffix_cons x xs).subset (ih h hpas))
      | ws =>
        simp only [matchAtoms] at h
        exact (List.dropWhile_suffix _).subset (ih h hpas)
      | optSpanOpen =>
        simp only [matchAtoms] at h
        by_cases hpre : spanOpen.isPrefixOf s
        · rw [if_pos hpre] at h
          cases hdw : (s.drop 5).dropWhile (· != '>') with
          | nil => rw [hdw] at h; exact absurd h (by simp)
          | cons x xs =>
            rw [hdw] at h
            have h1 : (x :: xs) <:+ s.drop 5 := hdw ▸ List.dropWhile_suffix _
            exact (List.drop_suffix 5 s).subset
              (h1.subset ((List.suffix_cons x xs).subset (ih h hpas)))
        · rw [if_neg hpre] at h
          exact ih h hpas
      | optClose =>
        simp only [matchAtoms] at h
        by_cases hpre : spanClose.isPrefixOf s
        · rw [if_pos hpre] at h
          exact (List.drop_suffix 7 s).subset (ih h hpas)
        · rw [if_neg hpre] at h
          exact ih h hpas

/-- No pattern with a brace-bearing literal matches inside brace-free
text. -/
theorem matchAtoms_none_of_no_lbrace {atoms : List HtmAtom} {s p : Str}
    (hp : HtmAtom.lit p ∈ atoms) (hbrace : lbrace ∈ p) (hs : lbrace ∉ s) :
    matchAtoms atoms s = none := by
  cases hm : matchAtoms atoms s with
  | none => rfl
  | some r => exact absurd (matchAtoms_lit_mem hm hp hbrace) hs

theorem replaceSpanPat_go_id {atoms : List HtmAtom} {rep p : Str}
    (hp : HtmAtom.lit p ∈ atoms) (hbrace : lbrace ∈ p) :
    ∀ (fuel : Nat) (s : Str), lbrace ∉ s → replaceSpanPat.go atoms rep fuel s = s
  | _, [], _ => by simp [replaceSpanPat.go]
  | 0, c :: t, _ => by simp [replaceSpanPat.go]
  | fuel + 1, c :: t, hs => by
    rw [replaceSpanPat.go, matchAtoms_none_of_no_lbrace hp hbrace hs]
    rw [replaceSpanPat_go_id hp hbrace fuel t (fun hmem => hs (List.mem_cons_of_mem c hmem))]

theorem replaceSpanPat_id {atoms : List HtmAtom} {rep p s : Str}
    (hp : HtmAtom.lit p ∈ atoms) (hbrace : lbrace ∈ p) (hs : lbrace ∉ s) :
    replaceSpanPat atoms rep s = s :=
  replaceSpanPat_go_id hp hbrace s.length s hs

/-- The three-span snapshot shape of the highlighter-split `{{apiKey}}`:
three adjacent inline-styled `span` elements containing `{{`, `apiKey`
and `}}`, with optional whitespace between them (as the replacement regex
allows). -/
def splitSpans (a1 w1 a2 w2 a3 : Str) : Str :=
  spanOpen ++ a1 ++ '>' :: (openBraces ++ spanClose) ++ w1 ++
  spanOpen ++ a2 ++ '>' :: ("apiKey".toList ++ spanClose) ++ w2 ++
  spanOpen ++ a3 ++ '>' :: (closeBraces ++ spanClose)

theorem dropWhile_all_append {p : Char → Bool} {X : Str} (Z : Str)
    (h : ∀ c ∈ X, p c = true) : (X ++ Z).dropWhile p = Z.dropWhile p := by
  induction X with
  | nil => rfl
  | cons c t ih =>
    rw [List.cons_append, List.dropWhile_cons_of_pos (h c (List.mem_cons_self c t))]
    exact ih (fun x hx => h x (List.mem_cons_of_mem c hx))

theorem matchAtoms_lit_step (p : Str) (as : List HtmAtom) (R : Str) :
    matchAtoms (.lit p :: as) (p ++ R) = matchAtoms as R := by
  simp only [matchAtoms]
  rw [if_pos (List.isPrefixOf_iff_prefix.mpr (List.prefix_append _ _)), List.drop_left]

theorem matchAtoms_tillGt_step {a : Str} (as : List HtmAtom) (R : Str)
    (ha : '>' ∉ a) : matchAtoms (.tillGt :: as) (a ++ '>' :: R) = matchAtoms as R := by
  simp only [matchAtoms]
  rw [dropWhile_all_append ('>' :: R) (fun c hc => by
    simp only [bne_iff_ne, ne_eq, decide_eq_true_eq]
    exact fun hgt => ha (hgt ▸ hc))]
  rw [List.dropWhile_cons_of_neg (by simp)]

theorem matchAtoms_ws_step {w Z : Str} (as : List HtmAtom)
    (hw : w.all jsIsWs = true) (hZ : Z.dropWhile jsIsWs = Z) :
    matchAtoms (.ws :: as) (w ++ Z) = matchAtoms as Z := by
  simp only [matchAtoms]
  rw [dropWhile_all_append Z (fun x hx => List.all_eq_true.mp hw x hx), hZ]

theorem dropWhile_ws_spanOpen (X : Str) :
    (spanOpen ++ X).dropWhile jsIsWs = spanOpen ++ X := by
  show (('<' :: ("span".toList ++ X)).dropWhile jsIsWs) = '<' :: ("span".toList ++ X)
  rw [List.dropWhile_cons_of_neg (by decide)]

/-- The canonical match: the apiKey span regex matches the three-span
snapshot exactly, leaving `post`. -/
theorem matchAtoms_apiKey_split (a1 w1 a2 w2 a3 post : Str)
    (ha1 : '>' ∉ a1) (ha2 : '>' ∉ a2) (ha3 : '>' ∉ a3)
    (hw1 : w1.all jsIsWs = true) (hw2 : w2.all jsIsWs = true) :
    matchAtoms apiKeySpanAtoms (splitSpans a1 w1 a2 w2 a3 ++ post) = some post := by
  have hsplit : splitSpans a1 w1 a2 w2 a3 ++ post =
      spanOpen ++ (a1 ++ '>' :: ((openBraces ++ spanClose) ++ (w1 ++
        (spanOpen ++ (a2 ++ '>' :: (("apiKey".toList ++ spanClose) ++ (w2 ++
          (spanOpen ++ (a3 ++ '>' :: ((closeBraces ++ spanClose) ++ post)))))))))) := by
    simp [splitSpans, List.append_assoc]
  rw [hsplit]
  show matchAtoms (.lit spanOpen :: .tillGt :: .lit (openBraces ++ spanClose) :: .ws ::
    .lit spanOpen :: .tillGt :: .lit ("apiKey".toList ++ spanClose) :: .ws ::
    .lit spanOpen :: .tillGt :: [.lit (closeBraces ++ spanClose)]) _ = some post
  rw [matchAtoms_lit_step]
  rw [matchAtoms_tillGt_step _ _ ha1]
  rw [matchAtoms_lit_step]
  rw [matchAtoms_ws_step _ hw1 (dropWhile_ws_spanOpen _)]
  rw [matchAtoms_lit_step]
  rw [matchAtoms_tillGt_step _ _ ha2]
  rw [matchAtoms_lit_step]
  rw [matchAtoms_ws_step _ hw2 (dropWhile_ws_spanOpen _)]
  rw [matchAtoms_lit_step]
  rw [matchAtoms_tillGt_step _ _ ha3]
  rw [matchAtoms_lit_step]
  rfl

theorem matchAtoms_apiKey_none_of_head {c : Char} (X : Str) (hc : c ≠ '<') :
    matchAtoms apiKeySpanAtoms (c :: X) = none := by
  show matchAtoms (.lit spanOpen :: _) _ = none
  simp only [matchAtoms]
  rw [show spanOpen = '<' :: "span".toList from rfl, isPrefixOf_head_false hc]
  simp

theorem splitSpans_cons (a1 w1 a2 w2 a3 post : Str) :
    ∃ t, splitSpans a1 w1 a2 w2 a3 ++ post = '<' :: t ∧
      t.length + 1 = (splitSpans a1 w1 a2 w2 a3).length + post.length := by
  refine ⟨"span".toList ++ (a1 ++ '>' :: (openBraces ++ spanClose) ++ w1 ++
    spanOpen ++ a2 ++ '>' :: ("apiKey".toList ++ spanClose) ++ w2 ++
    spanOpen ++ a3 ++ '>' :: (closeBraces ++ spanClose)) ++ post, ?_, ?_⟩
  · simp [splitSpans, spanOpen, List.append_assoc]
  · simp [splitSpans, spanOpen, List.length_append]
    omega

/-- Scanning the snapshot: positions in a tag-free `pre` never match (the
pattern starts with `<`), the match fires at the three spans and consumes
them entirely, and nothing matches in the brace-free `post`. -/
theorem replaceSpanPat_go_apiKey (k a1 w1 a2 w2 a3 post : Str)
    (ha1 : '>' ∉ a1) (ha2 : '>' ∉ a2) (ha3 : '>' ∉ a3)
    (hw1 : w1.all jsIsWs = true) (hw2 : w2.all jsIsWs = true)
    (hpost : lbrace ∉ post) :
    ∀ (fuel : Nat) (pre : Str),
      (pre ++ splitSpans a1 w1 a2 w2 a3 ++ post).length ≤ fuel → '<' ∉ pre →
      replaceSpanPat.go apiKeySpanAtoms (injSpan k) fuel
          (pre ++ splitSpans a1 w1 a2 w2 a3 ++ post)
        = pre ++ injSpan k ++ post := by
  intro fuel pre
  induction pre generalizing fuel with
  | nil =>
    intro hf _
    obtain ⟨t, hct, hlen⟩ := splitSpans_cons a1 w1 a2 w2 a3 post
    simp only [List.nil_append] at hf ⊢
    cases fuel with
    | zero =>
      rw [hct] at hf
      simp at hf
    | succ f =>
      rw [hct, replaceSpanPat.go, ← hct, matchAtoms_apiKey_split a1 w1 a2 w2 a3 post ha1 ha2 ha3 hw1 hw2]
      have hpos : 1 ≤ (splitSpans a1 w1 a2 w2 a3).length := by
        obtain ⟨t0, hct0, _⟩ := splitSpans_cons a1 w1 a2 w2 a3 []
        rw [List.append_nil] at hct0
        rw [hct0]
        simp
      dsimp only
      rw [if_pos (by omega)]
      rw [replaceSpanPat_go_id (p := openBraces ++ spanClose)
        (by simp [apiKeySpanAtoms]) (by decide) f post hpost]
  | cons c pre1 ih =>
    intro hf hpre
    have hc : c ≠ '<' := fun hch => hpre (hch ▸ List.mem_cons_self c pre1)
    have hpre1 : '<' ∉ pre1 := fun hmem => hpre (List.mem_cons_of_mem c hmem)
    simp only [List.cons_append] at hf ⊢
    cases fuel with
    | zero => simp at hf
    | succ f =>
      rw [replaceSpanPat.go, matchAtoms_apiKey_none_of_head _ hc]
      rw [ih f (by simp only [List.length_cons, List.length_append] at hf ⊢; omega) hpre1]

theorem replaceSpanPat_apiKey_main (k pre a1 w1 a2 w2 a3 post : Str)
    (ha1 : '>' ∉ a1) (ha2 : '>' ∉ a2) (ha3 : '>' ∉ a3)
    (hw1 : w1.all jsIsWs = true) (hw2 : w2.all jsIsWs = true)
    (hpost : lbrace ∉ post) (hpre : '<' ∉ pre) :
    replaceSpanPat apiKeySpanAtoms (injSpan k)
        (pre ++ splitSpans a1 w1 a2 w2 a3 ++ post)
      = pre ++ injSpan k ++ post :=
  replaceSpanPat_go_apiKey k a1 w1 a2 w2 a3 post ha1 ha2 ha3 hw1 hw2 hpost
    (pre ++ splitSpans a1 w1 a2 w2 a3 ++ post).length pre (Nat.le_refl _) hpre

theorem notMem_append {c : Char} {X Y : Str} (hx : c ∉ X) (hy : c ∉ Y) :
    c ∉ X ++ Y := by
  intro h
  rcases List.mem_append.mp h with h | h
  · exact hx h
  · exact hy h

theorem notMem_cons {c x : Char} {Y : Str} (hne : x ≠ c) (hy : c ∉ Y) :
    c ∉ x :: Y := by
  intro h
  rcases List.mem_cons.mp h with h | h
  · exact hne h.symm
  · exact hy h

/-- No pattern that starts with `{{` occurs in brace-free text. -/
theorem occursIn_openBraces_false {tail s : Str} (hs : lbrace ∉ s) :
    occursIn (openBraces ++ tail) s = false :=
  occursIn_false_of_head_notMem (q := lbrace :: tail) hs

/-- The plain-text `{{apiKey}}` pattern does not occur in the three-span
snapshot: its braces are split across the span elements. -/
theorem occursIn_phApiKey_snapshot (pre a1 w1 a2 w2 a3 post : Str)
    (hpre : lbrace ∉ pre) (ha1 : lbrace ∉ a1) (ha2 : lbrace ∉ a2)
    (ha3 : lbrace ∉ a3) (hw1 : w1.all jsIsWs = true)
    (hw2 : w2.all jsIsWs = true) (hpost : lbrace ∉ post) :
    occursIn phApiKey (pre ++ splitSpans a1 w1 a2 w2 a3 ++ post) = false := by
  have hnoSpanOpen : lbrace ∉ spanOpen := by decide
  have hnoSpanClose : lbrace ∉ spanClose := by decide
  have hnoCloseBr : lbrace ∉ closeBraces := by decide
  have hnoApiKey : lbrace ∉ ("apiKey".toList : Str) := by decide
  have hnoGt : lbrace ∉ (['>'] : Str) := by decide
  have hw1b : lbrace ∉ w1 := (ws_braceFree hw1).1
  have hw2b : lbrace ∉ w2 := (ws_braceFree hw2).1
  have hdec : pre ++ splitSpans a1 w1 a2 w2 a3 ++ post =
      (pre ++ (spanOpen ++ (a1 ++ ['>']))) ++
        (openBraces ++ (spanClose ++ (w1 ++ (spanOpen ++ (a2 ++ ('>' ::
          ("apiKey".toList ++ (spanClose ++ (w2 ++ (spanOpen ++ (a3 ++ ('>' ::
            (closeBraces ++ (spanClose ++ post)))))))))))))) := by
    simp [splitSpans, List.append_assoc]
  have hX1 : lbrace ∉ pre ++ (spanOpen ++ (a1 ++ ['>'])) :=
    notMem_append hpre (notMem_append hnoSpanOpen (notMem_append ha1 hnoGt))
  have hQ : lbrace ∉
      (w1 ++ (spanOpen ++ (a2 ++ ('>' :: ("apiKey".toList ++ (spanClose ++
        (w2 ++ (spanOpen ++ (a3 ++ ('>' :: (closeBraces ++
          (spanClose ++ post)))))))))))) :=
    notMem_append hw1b (notMem_append hnoSpanOpen (notMem_append ha2
      (notMem_cons (by decide) (notMem_append hnoApiKey (notMem_append hnoSpanClose
        (notMem_append hw2b (notMem_append hnoSpanOpen (notMem_append ha3
          (notMem_cons (by decide) (notMem_append hnoCloseBr
            (notMem_append hnoSpanClose hpost)))))))))))
  have hph : phApiKey = [lbrace, lbrace, 'a', 'p', 'i', 'K', 'e', 'y', rbrace, rbrace] := by
    decide
  rw [hdec, hph, occursIn_append_of_head_notMem
    (q := [lbrace, 'a', 'p', 'i', 'K', 'e', 'y', rbrace, rbrace]) hX1]
  show occursIn [lbrace, lbrace, 'a', 'p', 'i', 'K', 'e', 'y', rbrace, rbrace]
    (lbrace :: lbrace :: '<' :: ("/span>".toList ++ (w1 ++ (spanOpen ++ (a2 ++ ('>' ::
      ("apiKey".toList ++ (spanClose ++ (w2 ++ (spanOpen ++ (a3 ++ ('>' ::
        (closeBraces ++ (spanClose ++ post)))))))))))))) = false
  have hX2 : lbrace ∉ ('<' :: (("/span>".toList : Str) ++ (w1 ++ (spanOpen ++ (a2 ++ ('>' ::
      ("apiKey".toList ++ (spanClose ++ (w2 ++ (spanOpen ++ (a3 ++ ('>' ::
        (closeBraces ++ (spanClose ++ post)))))))))))))) :=
    notMem_cons (by decide) (notMem_append (by decide) hQ)
  have cx1 : ('a' == '<') = false := by decide
  have cx2 : (lbrace == '<') = false := by decide
  rw [occursIn, occursIn, occursIn_false_of_head_notMem
    (q := [lbrace, 'a', 'p', 'i', 'K', 'e', 'y', rbrace, rbrace]) hX2]
  simp [List.isPrefixOf, cx1, cx2]

/-- A `$`-free replacement string is untouched by `GetSubstitution`. -/
theorem getSub_no_dollar {matched before after : Str} :
    ∀ (rep : Str), ('$' : Char) ∉ rep → getSub matched before after rep = rep
  | [], _ => rfl
  | c :: t, h => by
    have hc : c ≠ '$' := fun he => h (he ▸ List.mem_cons_self c t)
    have ht : ('$' : Char) ∉ t := fun hm => h (List.mem_cons_of_mem c hm)
    rw [getSub.eq_def]
    dsimp only
    rw [if_neg hc, getSub_no_dollar t ht]

/-- A pattern that does not occur is never replaced (string-replacement
version). -/
theorem replaceAllSub_go_id {pat rep s0 : Str} : ∀ (fuel pos : Nat) (s : Str),
    occursIn pat s = false → replaceAllSub.go pat rep s0 fuel pos s = s
  | _, _, [], _ => by simp [replaceAllSub.go]
  | 0, _, c :: t, _ => by simp [replaceAllSub.go]
  | fuel + 1, pos, c :: t, hocc => by
    have hnp : pat.isPrefixOf (c :: t) = false := by
      simp only [occursIn, Bool.or_eq_false_iff] at hocc
      exact hocc.1
    rw [replaceAllSub.go, if_neg (by simp [hnp])]
    rw [replaceAllSub_go_id fuel (pos + 1) t (occursIn_cons_false hocc)]

theorem replaceAllSub_id {pat rep s : Str} (h : occursIn pat s = false) :
    replaceAllSub pat rep s = s :=
  replaceAllSub_go_id s.length 0 s h

theorem replaceSpanPatSub_go_id {atoms : List HtmAtom} {rep p s0 : Str}
    (hp : HtmAtom.lit p ∈ atoms) (hbrace : lbrace ∈ p) :
    ∀ (fuel pos : Nat) (s : Str), lbrace ∉ s →
      replaceSpanPatSub.go atoms rep s0 fuel pos s = s
  | _, _, [], _ => by simp [replaceSpanPatSub.go]
  | 0, _, c :: t, _ => by simp [replaceSpanPatSub.go]
  | fuel + 1, pos, c :: t, hs => by
    rw [replaceSpanPatSub.go, matchAtoms_none_of_no_lbrace hp hbrace hs]
    rw [replaceSpanPatSub_go_id hp hbrace fuel (pos + 1) t
      (fun hmem => hs (List.mem_cons_of_mem c hmem))]

theorem replaceSpanPatSub_id {atoms : List HtmAtom} {rep p s : Str}
    (hp : HtmAtom.lit p ∈ atoms) (hbrace : lbrace ∈ p) (hs : lbrace ∉ s) :
    replaceSpanPatSub atoms rep s = s :=
  replaceSpanPatSub_go_id hp hbrace s.length 0 s hs

/-- With a `$`-free replacement, the string-replacement span substitution
coincides with the literal one. -/
theorem replaceSpanPatSub_go_eq {atoms : List HtmAtom} {rep s0 : Str}
    (hrep : ('$' : Char) ∉ rep) : ∀ (fuel pos : Nat) (s : Str),
    replaceSpanPatSub.go atoms rep s0 fuel pos s = replaceSpanPat.go atoms rep fuel s
  | _, _, [] => by simp [replaceSpanPatSub.go, replaceSpanPat.go]
  | 0, _, c :: t => by simp [replaceSpanPatSub.go, replaceSpanPat.go]
  | fuel + 1, pos, c :: t => by
    simp only [replaceSpanPatSub.go, replaceSpanPat.go]
    cases hm : matchAtoms atoms (c :: t) with
    | none =>
      dsimp only
      rw [replaceSpanPatSub_go_eq hrep fuel (pos + 1) t]
    | some rest =>
      dsimp only
      by_cases hlt : rest.length < t.length + 1
      · rw [if_pos hlt, if_pos hlt, getSub_no_dollar rep hrep,
          replaceSpanPatSub_go_eq hrep fuel (pos + ((c :: t).length - rest.length)) rest]
      · rw [if_neg hlt, if_neg hlt,
          replaceSpanPatSub_go_eq hrep fuel (pos + 1) t]

theorem replaceSpanPatSub_eq_lit {atoms : List HtmAtom} {rep s : Str}
    (hrep : ('$' : Char) ∉ rep) :
    replaceSpanPatSub atoms rep s = replaceSpanPat atoms rep s :=
  replaceSpanPatSub_go_eq hrep s.length 0 s

/-- One unit of the highlighted markup preceding the split placeholder:
plain text without tags, or one complete highlighted span element. -/
inductive PreUnit where
  | text (chunk : Str)
  | span (attrs content : Str)

def PreUnit.render : PreUnit → Str
  | .text chunk => chunk
  | .span attrs content => spanOpen ++ (attrs ++ ('>' :: (content ++ spanClose)))

/-- Well-formedness of a unit: plain text carries no tag characters and
no braces; a span has a `>`-free `<`-free brace-free attribute tail and
`<`-free brace-free content. -/
def PreUnit.ok : PreUnit → Prop
  | .text chunk => '<' ∉ chunk ∧ braceFree chunk
  | .span attrs content =>
      '>' ∉ attrs ∧ '<' ∉ attrs ∧ braceFree attrs ∧ '<' ∉ content ∧ braceFree content

def renderPre (us : List PreUnit) : Str := (us.map PreUnit.render).flatten

theorem renderPre_braceFree {us : List PreUnit} (h : ∀ u ∈ us, u.ok) :
    braceFree (renderPre us) := by
  induction us with
  | nil => exact ⟨by decide, by decide⟩
  | cons u us ih =>
    have hu := h u (List.mem_cons_self u us)
    have hus := ih (fun v hv => h v (List.mem_cons_of_mem u hv))
    have hr : renderPre (u :: us) = u.render ++ renderPre us := by simp [renderPre]
    rw [hr]
    have hub : braceFree u.render := by
      cases u with
      | text chunk => exact hu.2
      | span attrs content =>
        obtain ⟨_, _, hab, _, hcb⟩ := hu
        exact ⟨notMem_append (by decide) (notMem_append hab.1
            (notMem_cons (by decide) (notMem_append hcb.1 (by decide)))),
          notMem_append (by decide) (notMem_append hab.2
            (notMem_cons (by decide) (notMem_append hcb.2 (by decide))))⟩
    exact ⟨notMem_append hub.1 hus.1, notMem_append hub.2 hus.2⟩

/-- The apiKey span pattern does not match at the opening tag of a
complete span whose content does not start the placeholder. -/
theorem matchAtoms_apiKey_none_spanUnit (attrs content T : Str)
    (hgt : '>' ∉ attrs) (hcb : lbrace ∉ content) :
    matchAtoms apiKeySpanAtoms
      (spanOpen ++ (attrs ++ ('>' :: (content ++ (spanClose ++ T))))) = none := by
  show matchAtoms (.lit spanOpen :: .tillGt :: .lit (openBraces ++ spanClose) :: _) _ = none
  rw [matchAtoms_lit_step]
  rw [matchAtoms_tillGt_step _ _ hgt]
  have hpf : (openBraces ++ spanClose).isPrefixOf (content ++ (spanClose ++ T)) = false := by
    cases content with
    | nil =>
      rw [List.nil_append]
      rw [show spanClose ++ T = '<' :: ("/span>".toList ++ T) from rfl]
      rw [show openBraces ++ spanClose = lbrace :: ([lbrace] ++ spanClose) from rfl]
      exact isPrefixOf_head_false (by decide)
    | cons c0 ct =>
      have hc0 : c0 ≠ lbrace := fun he => hcb (he ▸ List.mem_cons_self c0 ct)
      rw [List.cons_append]
      rw [show openBraces ++ spanClose = lbrace :: ([lbrace] ++ spanClose) from rfl]
      exact isPrefixOf_head_false hc0
  simp only [matchAtoms]
  rw [hpf]
  simp

/-- The apiKey span pattern does not match at a closing `span` tag. -/
theorem matchAtoms_apiKey_none_spanClose (T : Str) :
    matchAtoms apiKeySpanAtoms (spanClose ++ T) = none := by
  show matchAtoms (.lit spanOpen :: _) _ = none
  simp only [matchAtoms]
  rw [show spanClose ++ T = '<' :: ('/' :: ("span>".toList ++ T)) from rfl]
  have hpf : spanOpen.isPrefixOf ('<' :: ('/' :: ("span>".toList ++ T))) = false := by
    rw [show spanOpen = '<' :: "span".toList from rfl]
    have c1 : ('s' == '/') = false := by decide
    simp [List.isPrefixOf, c1]
  rw [hpf]
  simp

/-- The span scanner copies a tag-free segment through unchanged. -/
theorem replaceSpanPat_go_apiKey_notlt {rep : Str} : ∀ (fuel : Nat) (X T : Str),
    (X ++ T).length ≤ fuel → '<' ∉ X →
    replaceSpanPat.go apiKeySpanAtoms rep fuel (X ++ T) =
      X ++ replaceSpanPat.go apiKeySpanAtoms rep (fuel - X.length) T
  | fuel, [], T, _, _ => by simp
  | 0, x :: X, T, hf, _ => by simp at hf
  | fuel + 1, x :: X, T, hf, hX => by
    have hx : x ≠ '<' := fun he => hX (he ▸ List.mem_cons_self x X)
    have hX1 : '<' ∉ X := fun hm => hX (List.mem_cons_of_mem x hm)
    rw [List.cons_append, replaceSpanPat.go, matchAtoms_apiKey_none_of_head _ hx]
    rw [replaceSpanPat_go_apiKey_notlt fuel X T
      (by simp only [List.cons_append, List.length_cons, List.length_append] at hf ⊢; omega)
      hX1]
    simp [Nat.succ_sub_succ]

/-- The span scanner copies one complete well-formed span element through
unchanged: the pattern cannot start at or inside it. -/
theorem replaceSpanPat_go_apiKey_spanUnit {rep : Str} (fuel : Nat)
    (attrs content T : Str)
    (hf : ((PreUnit.span attrs content).render ++ T).length ≤ fuel)
    (hgt : '>' ∉ attrs) (hlt : '<' ∉ attrs) (hltc : '<' ∉ content)
    (hcb : lbrace ∉ content) :
    replaceSpanPat.go apiKeySpanAtoms rep fuel
        ((PreUnit.span attrs content).render ++ T) =
      (PreUnit.span attrs content).render ++
        replaceSpanPat.go apiKeySpanAtoms rep
          (fuel - ((PreUnit.span attrs content).render).length) T := by
  have e0 : ("<span".toList : Str) = '<' :: "span".toList := rfl
  have e1 : ("</span>".toList : Str) = '<' :: "/span>".toList := rfl
  have hrend : (PreUnit.span attrs content).render ++ T =
      '<' :: (("span".toList ++ (attrs ++ ('>' :: content))) ++ (spanClose ++ T)) := by
    simp [PreUnit.render, spanOpen, e0, List.append_assoc]
  have hrlen : ((PreUnit.span attrs content).render).length =
      attrs.length + content.length + 13 := by
    simp only [PreUnit.render, spanOpen, spanClose, List.length_append,
      List.length_cons, show (("<span".toList : Str)).length = 5 from rfl,
      show (("</span>".toList : Str)).length = 7 from rfl]
    omega
  have hX1len : ("span".toList ++ (attrs ++ ('>' :: content))).length =
      attrs.length + content.length + 5 := by
    simp only [List.length_append, List.length_cons,
      show (("span".toList : Str)).length = 4 from rfl]
    omega
  have hflen : attrs.length + content.length + 13 + T.length ≤ fuel := by
    rw [hrend] at hf
    simp only [List.length_cons, List.length_append, hX1len,
      show ((spanClose : Str)).length = 7 from rfl] at hf
    omega
  rw [hrend]
  cases fuel with
  | zero => simp at hflen
  | succ f =>
    have hm : matchAtoms apiKeySpanAtoms
        ('<' :: (("span".toList ++ (attrs ++ ('>' :: content))) ++ (spanClose ++ T))) =
        none := by
      have h := matchAtoms_apiKey_none_spanUnit attrs content T hgt hcb
      rw [show spanOpen ++ (attrs ++ ('>' :: (content ++ (spanClose ++ T)))) =
        '<' :: (("span".toList ++ (attrs ++ ('>' :: content))) ++ (spanClose ++ T))
        from by simp [spanOpen, e0, List.append_assoc]] at h
      exact h
    rw [replaceSpanPat.go, hm]
    rw [replaceSpanPat_go_apiKey_notlt f ("span".toList ++ (attrs ++ ('>' :: content)))
      (spanClose ++ T)
      (by simp only [List.length_append, hX1len,
            show ((spanClose : Str)).length = 7 from rfl]; omega)
      (notMem_append (by decide) (notMem_append hlt (notMem_cons (by decide) hltc)))]
    rw [hX1len]
    have hfl : f - (attrs.length + content.length + 5) =
        (f - (attrs.length + content.length + 5) - 1) + 1 := by omega
    rw [hfl]
    rw [show spanClose ++ T = '<' :: ("/span>".toList ++ T) from rfl]
    rw [replaceSpanPat.go]
    have hm2 : matchAtoms apiKeySpanAtoms ('<' :: ("/span>".toList ++ T)) = none := by
      have h := matchAtoms_apiKey_none_spanClose T
      rw [show spanClose ++ T = '<' :: ("/span>".toList ++ T) from rfl] at h
      exact h
    rw [hm2]
    rw [replaceSpanPat_go_apiKey_notlt (f - (attrs.length + content.length + 5) - 1)
      ("/span>".toList) T (by
        simp only [List.length_append, show (("/span>".toList : Str)).length = 6 from rfl]
        omega)
      (by decide)]
    rw [hrlen]
    rw [show f - (attrs.length + content.length + 5) - 1 -
        ("/span>".toList : Str).length =
      f + 1 - (attrs.length + content.length + 13) from by
        simp only [show (("/span>".toList : Str)).length = 6 from rfl]
        omega]
    simp [PreUnit.render, spanOpen, spanClose, e0, e1, List.append_assoc]

/-- The span scanner copies a list of well-formed units through
unchanged. -/
theorem replaceSpanPat_go_preUnits {rep : Str} : ∀ (us : List PreUnit) (fuel : Nat)
    (T : Str), (renderPre us ++ T).length ≤ fuel → (∀ u ∈ us, u.ok) →
    replaceSpanPat.go apiKeySpanAtoms rep fuel (renderPre us ++ T) =
      renderPre us ++ replaceSpanPat.go apiKeySpanAtoms rep
        (fuel - (renderPre us).length) T := by
  intro us
  induction us with
  | nil =>
    intro fuel T _ _
    simp [renderPre]
  | cons u us ih =>
    intro fuel T hf hok
    have hu := hok u (List.mem_cons_self u us)
    have hok1 : ∀ v ∈ us, v.ok := fun v hv => hok v (List.mem_cons_of_mem u hv)
    have hflat : renderPre (u :: us) ++ T = u.render ++ (renderPre us ++ T) := by
      simp [renderPre]
    have hren : renderPre (u :: us) = u.render ++ renderPre us := by
      simp [renderPre]
    rw [hflat] at hf ⊢
    cases u with
    | text chunk =>
      obtain ⟨hlt, _⟩ := hu
      dsimp only [PreUnit.render] at hf ⊢
      rw [replaceSpanPat_go_apiKey_notlt fuel chunk (renderPre us ++ T) hf hlt]
      rw [ih (fuel - chunk.length) T
        (by simp only [List.length_append] at hf ⊢; omega) hok1]
      rw [hren]
      dsimp only [PreUnit.render]
      rw [show fuel - chunk.length - (renderPre us).length =
        fuel - (chunk ++ renderPre us).length from by
          simp only [List.length_append]; omega]
      simp [List.append_assoc]
    | span attrs content =>
      obtain ⟨hgt, hlt, _, hltc, hcb⟩ := hu
      rw [replaceSpanPat_go_apiKey_spanUnit fuel attrs content (renderPre us ++ T)
        hf hgt hlt hltc hcb.1]
      rw [ih (fuel - ((PreUnit.span attrs content).render).length) T
        (by simp only [List.length_append] at hf ⊢; omega) hok1]
      rw [hren]
      rw [show fuel - ((PreUnit.span attrs content).render).length -
          (renderPre us).length =
        fuel - ((PreUnit.span attrs content).render ++ renderPre us).length from by
          simp only [List.length_append]; omega]
      simp [List.append_assoc]

/-- The full span replacement over well-formed units, the three-span
placeholder, and brace-free trailing markup. -/
theorem replaceSpanPat_apiKey_units (k post a1 w1 a2 w2 a3 : Str)
    (us : List PreUnit) (hus : ∀ u ∈ us, u.ok)
    (ha1 : '>' ∉ a1) (ha2 : '>' ∉ a2) (ha3 : '>' ∉ a3)
    (hw1 : w1.all jsIsWs = true) (hw2 : w2.all jsIsWs = true)
    (hpost : lbrace ∉ post) :
    replaceSpanPat apiKeySpanAtoms (injSpan k)
        (renderPre us ++ splitSpans a1 w1 a2 w2 a3 ++ post) =
      renderPre us ++ injSpan k ++ post := by
  unfold replaceSpanPat
  rw [List.append_assoc]
  rw [replaceSpanPat_go_preUnits us _ (splitSpans a1 w1 a2 w2 a3 ++ post)
    (Nat.le_refl _) hus]
  have hmain := replaceSpanPat_go_apiKey k a1 w1 a2 w2 a3 post ha1 ha2 ha3 hw1 hw2
    hpost ((renderPre us ++ (splitSpans a1 w1 a2 w2 a3 ++ post)).length -
      (renderPre us).length) []
    (by simp only [List.nil_append, List.length_append]; omega) (by simp)
  simp only [List.nil_append] at hmain
  rw [hmain]
  simp [List.append_assoc]

/-- C5 counterexample at a dollar-bearing key: `String.replace`
interprets `$&` in the replacement string as the matched text, so for
the key `$&` the substituted output re-inserts the matched three-span
run — it still contains `\x7b\x7b` and does not contain the literal
key, contradicting the claim's conclusion for a non-null key. -/
theorem claim5_counterexample :
    occursIn openBraces (substituteHtml (some ("$&".toList)) none
      (splitSpans (" style=\"color:#D19A66\"".toList) []
        (" style=\"color:#98C379\"".toList) []
        (" style=\"color:#D19A66\"".toList) ++ "tail".toList)) = true
    ∧ occursIn ("$&".toList) (substituteHtml (some ("$&".toList)) none
      (splitSpans (" style=\"color:#D19A66\"".toList) []
        (" style=\"color:#98C379\"".toList) []
        (" style=\"color:#D19A66\"".toList) ++ "tail".toList)) = false := by
  decide

/-- C5 (amended): for every snapshot in which `\x7b\x7bapiKey\x7d\x7d` has
been split into three adjacent inline-styled spans containing `\x7b\x7b`,
`apiKey` and `\x7d\x7d` (with optional whitespace between them), preceded
by any sequence of complete highlighted span elements and tag-free text
and followed by brace-free markup, running the client substitution with
a non-null, brace-free, dollar-free API key (whatever the selected
model) produces markup that contains the literal key and contains
neither the substring `\x7b\x7b` nor the substring `\x7d\x7d`. -/
theorem claim5_highlighter_split (k post a1 w1 a2 w2 a3 : Str)
    (us : List PreUnit) (mo : Option Model)
    (hk : braceFree k) (hkd : ('$' : Char) ∉ k)
    (hus : ∀ u ∈ us, u.ok)
    (hpostB : braceFree post)
    (ha1g : '>' ∉ a1) (ha1b : braceFree a1)
    (ha2g : '>' ∉ a2) (ha2b : braceFree a2)
    (ha3g : '>' ∉ a3) (ha3b : braceFree a3)
    (hw1 : w1.all jsIsWs = true) (hw2 : w2.all jsIsWs = true) :
    occursIn k (substituteHtml (some k) mo
        (renderPre us ++ splitSpans a1 w1 a2 w2 a3 ++ post)) = true
    ∧ occursIn openBraces (substituteHtml (some k) mo
        (renderPre us ++ splitSpans a1 w1 a2 w2 a3 ++ post)) = false
    ∧ occursIn closeBraces (substituteHtml (some k) mo
        (renderPre us ++ splitSpans a1 w1 a2 w2 a3 ++ post)) = false := by
  have hpreB : braceFree (renderPre us) := renderPre_braceFree hus
  have hinj : ('$' : Char) ∉ injSpan k := by
    intro hmem
    rcases List.mem_append.mp hmem with h1 | h2
    · rcases List.mem_append.mp h1 with h3 | h4
      · exact absurd h3 (by decide)
      · exact hkd h4
    · exact absurd h2 (by decide)
  have hRl : lbrace ∉ renderPre us ++ injSpan k ++ post :=
    notMem_append (notMem_append hpreB.1
      (notMem_append (notMem_append (by decide) hk.1) (by decide))) hpostB.1
  have hRr : rbrace ∉ renderPre us ++ injSpan k ++ post :=
    notMem_append (notMem_append hpreB.2
      (notMem_append (notMem_append (by decide) hk.2) (by decide))) hpostB.2
  have h1 : replaceAllSub phApiKey k
      (renderPre us ++ splitSpans a1 w1 a2 w2 a3 ++ post) =
      renderPre us ++ splitSpans a1 w1 a2 w2 a3 ++ post :=
    replaceAllSub_id (occursIn_phApiKey_snapshot (renderPre us) a1 w1 a2 w2 a3 post
      hpreB.1 ha1b.1 ha2b.1 ha3b.1 hw1 hw2 hpostB.1)
  have h2 : replaceSpanPatSub apiKeySpanAtoms (injSpan k)
      (renderPre us ++ splitSpans a1 w1 a2 w2 a3 ++ post) =
      renderPre us ++ injSpan k ++ post := by
    rw [replaceSpanPatSub_eq_lit hinj]
    exact replaceSpanPat_apiKey_units k post a1 w1 a2 w2 a3 us hus
      ha1g ha2g ha3g hw1 hw2 hpostB.1
  have hsub : substituteHtml (some k) mo
      (renderPre us ++ splitSpans a1 w1 a2 w2 a3 ++ post) =
      renderPre us ++ injSpan k ++ post := by
    cases mo with
    | none =>
      unfold substituteHtml
      dsimp only
      rw [h1, h2]
    | some m =>
      unfold substituteHtml
      dsimp only
      rw [h1, h2]
      have e1 : replaceAllSub phModelId m.id (renderPre us ++ injSpan k ++ post) =
          renderPre us ++ injSpan k ++ post :=
        replaceAllSub_id (occursIn_openBraces_false hRl)
      have e2 : replaceAllSub phModelName (jsOrStr m.name m.id)
          (renderPre us ++ injSpan k ++ post) = renderPre us ++ injSpan k ++ post :=
        replaceAllSub_id (occursIn_openBraces_false hRl)
      have e3 : replaceSpanPatSub (modelSpanAtoms ("id".toList)) (injSpan m.id)
          (renderPre us ++ injSpan k ++ post) = renderPre us ++ injSpan k ++ post :=
        replaceSpanPatSub_id (p := openBraces ++ spanClose)
          (by simp [modelSpanAtoms]) (by decide) hRl
      have e4 : replaceSpanPatSub (modelSpanAtoms ("name".toList))
          (injSpan (jsOrStr m.name m.id)) (renderPre us ++ injSpan k ++ post) =
          renderPre us ++ injSpan k ++ post :=
        replaceSpanPatSub_id (p := openBraces ++ spanClose)
          (by simp [modelSpanAtoms]) (by decide) hRl
      rw [e1, e2, e3, e4]
      have eri : ∀ v : Str, replaceAllSub phRealtimeInput v
          (renderPre us ++ injSpan k ++ post) = renderPre us ++ injSpan k ++ post :=
        fun v => replaceAllSub_id (occursIn_openBraces_false hRl)
      have ero : ∀ v : Str, replaceAllSub phRealtimeOutput v
          (renderPre us ++ injSpan k ++ post) = renderPre us ++ injSpan k ++ post :=
        fun v => replaceAllSub_id (occursIn_openBraces_false hRl)
      have ebi : ∀ v : Str, replaceAllSub phBatchInput v
          (renderPre us ++ injSpan k ++ post) = renderPre us ++ injSpan k ++ post :=
        fun v => replaceAllSub_id (occursIn_openBraces_false hRl)
      have ebo : ∀ v : Str, replaceAllSub phBatchOutput v
          (renderPre us ++ injSpan k ++ post) = renderPre us ++ injSpan k ++ post :=
        fun v => replaceAllSub_id (occursIn_openBraces_false hRl)
      cases hb : m.pricing.jsGet ("batch".toList) with
      | none =>
        cases hr : m.pricing.jsGet ("realtime".toList) with
        | none => rfl
        | some rp =>
          dsimp only
          rw [eri, ero]
      | some bp =>
        dsimp only
        rw [ebi, ebo]
        cases hr : m.pricing.jsGet ("realtime".toList) with
        | none => rfl
        | some rp =>
          dsimp only
          rw [eri, ero]
  refine ⟨?_, ?_, ?_⟩ <;> rw [hsub]
  · have hR2 : renderPre us ++ injSpan k ++ post =
        (renderPre us ++ ("<span style=\"color:#98C379\">".toList)) ++
          (k ++ (spanClose ++ post)) := by
      simp [injSpan, List.append_assoc]
    rw [hR2]
    exact occursIn_append_self _ _ _
  · exact occursIn_false_of_head_notMem (q := [lbrace]) hRl
  · exact occursIn_false_of_head_notMem (q := [rbrace]) hRr

/-- C5 witness: a Shiki-style snapshot with one highlighted span and
plain text before the split placeholder, with a concrete key. -/
theorem claim5_highlighter_split_witness :
    occursIn ("sk-test-highlighted".toList) (substituteHtml
        (some ("sk-test-highlighted".toList)) none
        (renderPre [PreUnit.span (" style=\"color:#C678DD\"".toList)
            ("const".toList), PreUnit.text (" apiKey = ".toList)] ++
          splitSpans (" style=\"color:#D19A66\"".toList) []
            (" style=\"color:#98C379\"".toList) []
            (" style=\"color:#D19A66\"".toList) ++ "tail".toList)) = true
    ∧ occursIn openBraces (substituteHtml
        (some ("sk-test-highlighted".toList)) none
        (renderPre [PreUnit.span (" style=\"color:#C678DD\"".toList)
            ("const".toList), PreUnit.text (" apiKey = ".toList)] ++
          splitSpans (" style=\"color:#D19A66\"".toList) []
            (" style=\"color:#98C379\"".toList) []
            (" style=\"color:#D19A66\"".toList) ++ "tail".toList)) = false
    ∧ occursIn closeBraces (substituteHtml
        (some ("sk-test-highlighted".toList)) none
        (renderPre [PreUnit.span (" style=\"color:#C678DD\"".toList)
            ("const".toList), PreUnit.text (" apiKey = ".toList)] ++
          splitSpans (" style=\"color:#D19A66\"".toList) []
            (" style=\"color:#98C379\"".toList) []
            (" style=\"color:#D19A66\"".toList) ++ "tail".toList)) = false :=
  claim5_highlighter_split ("sk-test-highlighted".toList) ("tail".toList)
    (" style=\"color:#D19A66\"".toList) [] (" style=\"color:#98C379\"".toList) []
    (" style=\"color:#D19A66\"".toList)
    [PreUnit.span (" style=\"color:#C678DD\"".toList) ("const".toList),
     PreUnit.text (" apiKey = ".toList)] none
    ⟨by decide, by decide⟩ (by decide)
    (by
      intro u hu
      rcases List.mem_cons.mp hu with rfl | hu
      · exact ⟨by decide, by decide, ⟨by decide, by decide⟩, by decide,
          ⟨by decide, by decide⟩⟩
      · rcases List.mem_cons.mp hu with rfl | hu
        · exact ⟨by decide, ⟨by decide, by decide⟩⟩
        · exact absurd hu (List.not_mem_nil u))
    ⟨by decide, by decide⟩ (by decide) ⟨by decide, by decide⟩
    (by decide) ⟨by decide, by decide⟩ (by decide) ⟨by decide, by decide⟩
    (by decide) (by decide)

/-! ## C1: machinery -/

/-- `pat` neither starts at, nor is reachable from, any position of `W`:
at every position of `W`, the remaining text of `W` is not an extension
of `pat` and not a prefix of `pat`.  Because any prefix relation between
`pat` and `W.drop i ++ Z` would make one of the two a prefix of the
other, this rules out matches of `pat` starting anywhere in `W`,
whatever follows `W`.  Decidable, so concrete segments are checked by
`decide`. -/
def cleanOf (pat W : Str) : Bool :=
  (List.range W.length).all fun i =>
    !(pat.isPrefixOf (W.drop i)) && !((W.drop i).isPrefixOf pat)

/-- Two prefixes of the same list are comparable. -/
theorem prefix_total {l1 l2 l3 : Str} (h1 : l1 <+: l3) (h2 : l2 <+: l3) :
    l1 <+: l2 ∨ l2 <+: l1 := by
  rw [List.prefix_iff_eq_take] at h1 h2
  rcases Nat.le_total l1.length l2.length with hle | hle
  · left
    rw [List.prefix_iff_eq_take]
    conv_lhs => rw [h1]
    rw [h2, List.take_take, Nat.min_eq_left hle]
  · right
    rw [List.prefix_iff_eq_take]
    conv_lhs => rw [h2]
    rw [h1, List.take_take, Nat.min_eq_left hle]

theorem cleanOf_spec {pat W : Str} (h : cleanOf pat W = true) (Z : Str)
    (i : Nat) (hi : i < W.length) :
    pat.isPrefixOf (W.drop i ++ Z) = false := by
  have hmem := List.all_eq_true.mp h i (List.mem_range.mpr hi)
  simp only [Bool.and_eq_true, Bool.not_eq_true'] at hmem
  by_contra hpre
  rw [Bool.not_eq_false] at hpre
  have hp : pat <+: (W.drop i ++ Z) := List.isPrefixOf_iff_prefix.mp hpre
  have hd : (W.drop i) <+: (W.drop i ++ Z) := List.prefix_append _ _
  rcases prefix_total hp hd with hc | hc
  · rw [List.isPrefixOf_iff_prefix.mpr hc] at hmem
    exact absurd hmem.1 (by simp)
  · rw [List.isPrefixOf_iff_prefix.mpr hc] at hmem
    exact absurd hmem.2 (by simp)

theorem cleanOf_tail {pat : Str} {c : Char} {W : Str}
    (h : cleanOf pat (c :: W) = true) : cleanOf pat W = true := by
  rw [cleanOf] at h ⊢
  rw [List.all_eq_true] at h ⊢
  intro i hi
  have := h (i + 1) (by
    rw [List.mem_range] at hi ⊢
    simp only [List.length_cons]
    omega)
  simpa using this

theorem cleanOf_head_prefix_false {pat : Str} {c : Char} {W Z : Str}
    (h : cleanOf pat (c :: W) = true) :
    pat.isPrefixOf (c :: (W ++ Z)) = false := by
  have := cleanOf_spec h Z 0 (by simp)
  simpa using this

/-- A pattern whose head character does not occur in `W` matches nowhere
in `W`. -/
theorem cleanOf_of_head_notMem {h : Char} {p' W : Str} (hW : h ∉ W) :
    cleanOf (h :: p') W = true := by
  rw [cleanOf, List.all_eq_true]
  intro i hi
  rw [List.mem_range] at hi
  have hdrop : W.drop i = W[i] :: W.drop (i + 1) := List.drop_eq_getElem_cons hi
  have hmem : W[i] ∈ W := List.getElem_mem hi
  have hne : W[i] ≠ h := fun he => hW (he ▸ hmem)
  rw [hdrop]
  simp only [Bool.and_eq_true, Bool.not_eq_true']
  exact ⟨isPrefixOf_head_false hne, isPrefixOf_head_false (Ne.symm hne)⟩

/-- Occurrence scanning skips a clean segment. -/
theorem occursIn_append_clean {pat W Z : Str} (h : cleanOf pat W = true) :
    occursIn pat (W ++ Z) = occursIn pat Z := by
  induction W with
  | nil => rfl
  | cons c W ih =>
    rw [List.cons_append, occursIn, cleanOf_head_prefix_false h, Bool.false_or]
    exact ih (cleanOf_tail h)

/-- Literal replacement replaces a marked occurrence exactly, when the
pattern matches nowhere in the preceding text and nowhere after. -/
theorem replaceAllLit_append_match {pat rep X Z : Str} {h : Char} {p' : Str}
    (hpat : pat = h :: p') (hX : h ∉ X) (hZ : occursIn pat Z = false) :
    replaceAllLit pat rep (X ++ (pat ++ Z)) = X ++ (rep ++ Z) := by
  have main : ∀ (fuel : Nat) (X : Str), (X ++ (pat ++ Z)).length ≤ fuel → h ∉ X →
      replaceAllLit.go pat rep fuel (X ++ (pat ++ Z)) = X ++ (rep ++ Z) := by
    intro fuel X
    induction X generalizing fuel with
    | nil =>
      intro hf _
      simp only [List.nil_append] at hf ⊢
      cases fuel with
      | zero =>
        rw [hpat] at hf
        simp at hf
      | succ f =>
        rw [hpat, List.cons_append, replaceAllLit.go, ← List.cons_append, ← hpat]
        rw [if_pos ⟨by rw [hpat]; simp,
          List.isPrefixOf_iff_prefix.mpr (List.prefix_append _ _)⟩]
        rw [List.drop_left]
        rw [replaceAllLit_go_id f Z hZ]
    | cons x X1 ih =>
      intro hf hx
      have hxh : x ≠ h := fun he => hx (he ▸ List.mem_cons_self x X1)
      have hX1 : h ∉ X1 := fun hm => hx (List.mem_cons_of_mem x hm)
      simp only [List.cons_append] at hf ⊢
      cases fuel with
      | zero => simp at hf
      | succ f =>
        rw [replaceAllLit.go]
        rw [if_neg (by
          intro hcon
          have := hcon.2
          rw [hpat] at this
          rw [isPrefixOf_head_false hxh] at this
          exact absurd this (by simp))]
        rw [ih f (by simp only [List.length_cons] at hf ⊢; omega) hX1]
  exact main (X ++ (pat ++ Z)).length X (Nat.le_refl _) hX

/-- `splitOnSub` skips a clean segment. -/
theorem splitOnSub_append_clean {pat W Z : Str} (h : cleanOf pat W = true) :
    splitOnSub pat (W ++ Z) =
      (splitOnSub pat Z).map (fun ab => (W ++ ab.1, ab.2)) := by
  induction W with
  | nil =>
    simp only [List.nil_append]
    cases splitOnSub pat Z with
    | none => rfl
    | some ab => rfl
  | cons c W ih =>
    rw [List.cons_append, splitOnSub,
      if_neg (by rw [cleanOf_head_prefix_false h]; simp)]
    rw [ih (cleanOf_tail h)]
    cases splitOnSub pat Z with
    | none => rfl
    | some ab => simp

theorem takeWhile_all_append {p : Char → Bool} {X : Str} (Z : Str)
    (h : ∀ c ∈ X, p c = true) : (X ++ Z).takeWhile p = X ++ Z.takeWhile p := by
  induction X with
  | nil => rfl
  | cons c t ih =>
    rw [List.cons_append, List.takeWhile_cons_of_pos (h c (List.mem_cons_self c t)),
      ih (fun x hx => h x (List.mem_cons_of_mem c hx)), List.cons_append]

theorem dropWhile_eq_self_of_takeWhile_nil {p : Char → Bool} {s : Str}
    (h : s.takeWhile p = []) : s.dropWhile p = s := by
  cases s with
  | nil => rfl
  | cons c t =>
    by_cases hc : p c
    · rw [List.takeWhile_cons_of_pos hc] at h
      exact absurd h (by simp)
    · exact List.dropWhile_cons_of_neg hc

/-- The dotted-suffix scanner stops at a non-dot head. -/
theorem dotSuffixes_go_nondot : ∀ (fuel : Nat) (c : Char) (rest : Str),
    ¬(c = '.') → dotSuffixes.go fuel (c :: rest) = ([], c :: rest)
  | 0, c, rest, _ => rfl
  | fuel + 1, c, rest, hc => by
    simp only [dotSuffixes.go]
    rw [if_neg (fun h => hc h.1)]

/-- The dotted-suffix scanner's result does not depend on the exact fuel,
as long as the fuel covers the input length. -/
theorem dotSuffixes_go_congr : ∀ (f1 f2 : Nat) (s : Str), s.length ≤ f1 →
    s.length ≤ f2 → dotSuffixes.go f1 s = dotSuffixes.go f2 s
  | f1, f2, [], _, _ => by cases f1 <;> cases f2 <;> rfl
  | 0, _, c :: rest, h1, _ => by simp at h1
  | _ + 1, 0, c :: rest, _, h2 => by simp at h2
  | f1 + 1, f2 + 1, c :: rest, h1, h2 => by
    simp only [dotSuffixes.go]
    by_cases hc : c = '.' ∧ ¬(rest.takeWhile wordChar).isEmpty
    · rw [if_pos hc, if_pos hc]
      have hl := length_dropWhile_le wordChar rest
      simp only [List.length_cons] at h1 h2
      rw [dotSuffixes_go_congr f1 f2 (rest.dropWhile wordChar) (by omega) (by omega)]
    · rw [if_neg hc, if_neg hc]

/-- The dotted-suffix scanner consumes one `.`-plus-word-run group. -/
theorem dotSuffixes_go_group (fuel : Nat) (run rest : Str)
    (hne : run ≠ []) (hw : ∀ x ∈ run, wordChar x = true)
    (hstop : rest.takeWhile wordChar = []) :
    dotSuffixes.go (fuel + 1) ('.' :: (run ++ rest)) =
      ('.' :: (run ++ (dotSuffixes.go fuel rest).1), (dotSuffixes.go fuel rest).2) := by
  have htw : (run ++ rest).takeWhile wordChar = run := by
    rw [takeWhile_all_append rest hw, hstop, List.append_nil]
  have hdw : (run ++ rest).dropWhile wordChar = rest := by
    rw [dropWhile_all_append rest hw, dropWhile_eq_self_of_takeWhile_nil hstop]
  simp only [dotSuffixes.go]
  rw [if_pos ⟨by trivial, by rw [htw]; simpa using hne⟩, htw, hdw]

/-- The dotted-suffix scanner consumes exactly `.pricing.batch.input`
when the text continues with the closing braces. -/
theorem dotSuffixes_pricingBatchInput (Z : Str) :
    dotSuffixes (".pricing.batch.input".toList ++ (closeBraces ++ Z)) =
      (".pricing.batch.input".toList, closeBraces ++ Z) := by
  unfold dotSuffixes
  rw [dotSuffixes_go_congr _ (Z.length + 22) _ (Nat.le_refl _) (by
    have e1 : (".pricing.batch.input".toList).length = 20 := rfl
    have e2 : closeBraces.length = 2 := rfl
    simp only [List.length_append, e1, e2]
    omega)]
  rw [show ".pricing.batch.input".toList ++ (closeBraces ++ Z) =
    '.' :: ("pricing".toList ++ ('.' :: ("batch".toList ++
      ('.' :: ("input".toList ++ (closeBraces ++ Z)))))) from rfl]
  rw [show Z.length + 22 = (Z.length + 21) + 1 from rfl]
  rw [dotSuffixes_go_group (Z.length + 21) ("pricing".toList)
    ('.' :: ("batch".toList ++ ('.' :: ("input".toList ++ (closeBraces ++ Z)))))
    (by decide) (by decide)
    (by rw [List.takeWhile_cons, if_neg (by decide)])]
  rw [show Z.length + 21 = (Z.length + 20) + 1 from rfl]
  rw [dotSuffixes_go_group (Z.length + 20) ("batch".toList)
    ('.' :: ("input".toList ++ (closeBraces ++ Z)))
    (by decide) (by decide)
    (by rw [List.takeWhile_cons, if_neg (by decide)])]
  rw [show Z.length + 20 = (Z.length + 19) + 1 from rfl]
  rw [dotSuffixes_go_group (Z.length + 19) ("input".toList) (closeBraces ++ Z)
    (by decide) (by decide)
    (by rw [show closeBraces ++ Z = rbrace :: ([rbrace] ++ Z) from rfl,
          List.takeWhile_cons, if_neg (by decide)])]
  rw [show closeBraces ++ Z = rbrace :: ([rbrace] ++ Z) from rfl]
  rw [dotSuffixes_go_nondot (Z.length + 19) rbrace ([rbrace] ++ Z) (by decide)]
  rfl

/-- The client-placeholder matcher consumes `{{apiKey}}`
exactly, whatever follows it. -/
theorem matchClient_apiKey (Z : Str) :
    matchClient "apiKey".toList (phApiKey ++ Z) = some (phApiKey, Z) := by
  have hs : phApiKey ++ Z = (openBraces ++ "apiKey".toList) ++ (closeBraces ++ Z) := by
    simp [phApiKey, List.append_assoc]
  unfold matchClient
  rw [hs]
  rw [if_pos (List.isPrefixOf_iff_prefix.mpr (List.prefix_append _ _))]
  have e : 2 + ("apiKey".toList).length = ((openBraces ++ "apiKey".toList)).length := rfl
  rw [e, List.drop_left]
  have hd : dotSuffixes (closeBraces ++ Z) = ([], closeBraces ++ Z) := by
    unfold dotSuffixes
    rw [show closeBraces ++ Z = rbrace :: ([rbrace] ++ Z) from rfl]
    exact dotSuffixes_go_nondot _ rbrace _ (by decide)
  rw [hd]
  rw [if_pos (List.isPrefixOf_iff_prefix.mpr (List.prefix_append _ _))]
  have hdrop : (closeBraces ++ Z).drop 2 = Z := by
    rw [show (2 : Nat) = closeBraces.length from rfl, List.drop_left]
  simp [phApiKey, hdrop]

/-- The client-placeholder matcher consumes
`{{selectedModel.pricing.batch.input}}` exactly, whatever
follows it. -/
theorem matchClient_batchInput (Z : Str) :
    matchClient "selectedModel".toList (phBatchInput ++ Z) =
      some (phBatchInput, Z) := by
  have hs : phBatchInput ++ Z = (openBraces ++ "selectedModel".toList) ++
      (".pricing.batch.input".toList ++ (closeBraces ++ Z)) := by
    rw [phBatchInput]
    rw [show "selectedModel.pricing.batch.input".toList =
      "selectedModel".toList ++ ".pricing.batch.input".toList from rfl]
    simp [List.append_assoc]
  unfold matchClient
  rw [hs]
  rw [if_pos (List.isPrefixOf_iff_prefix.mpr (List.prefix_append _ _))]
  have e : 2 + ("selectedModel".toList).length =
      ((openBraces ++ "selectedModel".toList)).length := rfl
  rw [e, List.drop_left]
  rw [dotSuffixes_pricingBatchInput]
  rw [if_pos (List.isPrefixOf_iff_prefix.mpr (List.prefix_append _ _))]
  have hdrop : (closeBraces ++ Z).drop 2 = Z := by
    rw [show (2 : Nat) = closeBraces.length from rfl, List.drop_left]
  rw [hdrop]
  rw [phBatchInput]
  rw [show "selectedModel.pricing.batch.input".toList =
    "selectedModel".toList ++ ".pricing.batch.input".toList from rfl]
  simp [List.append_assoc]

theorem matchClient_none_of_prefix_false {name s : Str}
    (h : (openBraces ++ name).isPrefixOf s = false) : matchClient name s = none := by
  unfold matchClient
  rw [if_neg (by rw [h]; simp)]

/-- A pattern containing a character that is absent from `s` is not a
prefix of `s`. -/
theorem isPrefixOf_false_of_mem_notMem (c : Char) {pat s : Str}
    (hc : c ∈ pat) (hs : c ∉ s) : pat.isPrefixOf s = false := by
  by_contra h
  rw [Bool.not_eq_false] at h
  exact hs ((List.isPrefixOf_iff_prefix.mp h).subset hc)

/-- The escape pass copies a clean segment through unchanged. -/
theorem escapePass_go_clean {name : Str} : ∀ (fuel : Nat) (W Z : Str) (k : Nat),
    (W ++ Z).length ≤ fuel → cleanOf (openBraces ++ name) W = true →
    escapePass.go name fuel (W ++ Z) k =
      (W ++ (escapePass.go name (fuel - W.length) Z k).1,
       (escapePass.go name (fuel - W.length) Z k).2)
  | fuel, [], Z, k, _, _ => by simp
  | 0, x :: W, Z, k, hf, _ => by simp at hf
  | fuel + 1, x :: W, Z, k, hf, hcl => by
    have hm : matchClient name (x :: (W ++ Z)) = none :=
      matchClient_none_of_prefix_false (cleanOf_head_prefix_false hcl)
    rw [List.cons_append]
    simp only [escapePass.go]
    rw [hm]
    dsimp only
    rw [escapePass_go_clean fuel W Z k
      (by simp only [List.cons_append, List.length_cons, List.length_append] at hf ⊢; omega)
      (cleanOf_tail hcl)]
    simp [Nat.succ_sub_succ]

/-- The escape pass replaces a matched placeholder with the next marker
and records it in the map. -/
theorem escapePass_go_match (name ph Z : Str) (fuel k : Nat)
    (hf : (ph ++ Z).length ≤ fuel) (hne : ph ≠ [])
    (hm : matchClient name (ph ++ Z) = some (ph, Z)) :
    escapePass.go name fuel (ph ++ Z) k =
      (markerStr k ++ (escapePass.go name (fuel - 1) Z (k + 1)).1,
       (k, ph) :: (escapePass.go name (fuel - 1) Z (k + 1)).2) := by
  cases fuel with
  | zero =>
    exfalso
    cases ph with
    | nil => exact hne rfl
    | cons p pt => simp at hf
  | succ f =>
    cases ph with
    | nil => exact absurd rfl hne
    | cons p pt =>
      rw [List.cons_append] at hm ⊢
      simp only [escapePass.go]
      rw [hm]
      simp

/-- The escape pass is the identity (and records nothing) on a final
clean segment. -/
theorem escapePass_go_clean_end {name : Str} (fuel : Nat) (W : Str) (k : Nat)
    (hf : W.length ≤ fuel) (hcl : cleanOf (openBraces ++ name) W = true) :
    escapePass.go name fuel W k = (W, []) := by
  have h := escapePass_go_clean fuel W [] k (by simpa using hf) hcl
  rw [List.append_nil] at h
  rw [h]
  have hz : escapePass.go name (fuel - W.length) [] k = ([], []) := by
    cases fuel - W.length <;> rfl
  rw [hz]
  simp

theorem cleanOf_braces_of_notMem {name W : Str} (hW : lbrace ∉ W) :
    cleanOf (openBraces ++ name) W = true :=
  cleanOf_of_head_notMem hW

/-- `splitOnSub` at an occurrence sitting at the head. -/
theorem splitOnSub_self_append {pat : Str} (Z : Str) (hne : pat ≠ []) :
    splitOnSub pat (pat ++ Z) = some ([], Z) := by
  cases pat with
  | nil => exact absurd rfl hne
  | cons p pt =>
    rw [List.cons_append, splitOnSub]
    rw [if_pos (show (p :: pt).isPrefixOf (p :: (pt ++ Z)) = true from
      List.isPrefixOf_iff_prefix.mpr (List.prefix_append (p :: pt) Z))]
    rw [show (p :: pt).length = pt.length + 1 from rfl, List.drop_succ_cons,
      List.drop_left]

/-- The body of the documentation's `{{#each models}}` loop:
`- {{this.id}}` and a newline. -/
def c1Body : Str := "- \x7b\x7bthis.id\x7d\x7d\n".toList

/-- The server-side loop `{{#each models}}- {{this.id}}\n{{/each}}`. -/
def c1Loop : Str :=
  openBraces ++ "#each models".toList ++ closeBraces ++ c1Body ++ eachCloseTag

/-- The expansion the loop should produce: one `- id` line per model. -/
def c1Expansion (ms : List Model) : Str :=
  (ms.map (fun m => "- ".toList ++ (m.id ++ "\n".toList))).flatten

/-- Rendering the loop body for one model yields its id line. -/
theorem renderEachBody_c1 {m : Model} (h : lbrace ∉ m.id) :
    renderEachBody m c1Body = "- ".toList ++ (m.id ++ "\n".toList) := by
  unfold renderEachBody
  rw [show c1Body =
    "- ".toList ++ ((openBraces ++ "this.id".toList ++ closeBraces) ++ "\n".toList) from rfl]
  rw [replaceAllLit_append_match
    (show openBraces ++ "this.id".toList ++ closeBraces =
      lbrace :: "\x7bthis.id\x7d\x7d".toList from rfl)
    (show lbrace ∉ "- ".toList from by decide)
    (show occursIn (openBraces ++ "this.id".toList ++ closeBraces) "\n".toList = false
      from by decide)]
  have hnm : lbrace ∉ "- ".toList ++ (m.id ++ "\n".toList) := by
    intro hmem
    rcases List.mem_append.mp hmem with h1 | h2
    · exact absurd h1 (by decide)
    · rcases List.mem_append.mp h2 with h3 | h4
      · exact h h3
      · exact absurd h4 (by decide)
  exact replaceAllLit_id (occursIn_false_of_head_notMem hnm)

/-- First escape pass (`apiKey`) over the claim's template shape: the
`{{apiKey}}` occurrence becomes marker 0; nothing else matches. -/
theorem escapePass_c1_first (a b c d : Str) (ha : lbrace ∉ a) (hb : lbrace ∉ b)
    (hc : lbrace ∉ c) (hd : lbrace ∉ d) :
    escapePass "apiKey".toList
      (a ++ (phApiKey ++ (b ++ (phBatchInput ++ (c ++ (c1Loop ++ d)))))) 0 =
      (a ++ (markerStr 0 ++ (b ++ (phBatchInput ++ (c ++ (c1Loop ++ d))))),
       [(0, phApiKey)]) := by
  have L1 : phApiKey.length = 10 := rfl
  unfold escapePass
  set Z5 := c1Loop ++ d with hZ5
  set Z4 := c ++ Z5 with hZ4
  set Z3 := phBatchInput ++ Z4 with hZ3
  set Z2 := b ++ Z3 with hZ2
  set Z1 := phApiKey ++ Z2 with hZ1
  rw [escapePass_go_clean (a ++ Z1).length a Z1 0 (Nat.le_refl _)
    (cleanOf_braces_of_notMem ha)]
  have hf1 : (a ++ Z1).length - a.length = Z1.length := by
    simp [List.length_append]
  rw [hf1, hZ1]
  rw [escapePass_go_match "apiKey".toList phApiKey Z2 (phApiKey ++ Z2).length 0
    (Nat.le_refl _) (by decide) (matchClient_apiKey Z2)]
  have hf2 : (phApiKey ++ Z2).length - 1 = Z2.length + 9 := by
    simp only [List.length_append, L1]
    omega
  rw [hf2, hZ2]
  rw [escapePass_go_clean ((b ++ Z3).length + 9) b Z3 1 (by omega)
    (cleanOf_braces_of_notMem hb)]
  have hf3 : (b ++ Z3).length + 9 - b.length = Z3.length + 9 := by
    simp only [List.length_append]
    omega
  rw [hf3, hZ3]
  rw [escapePass_go_clean ((phBatchInput ++ Z4).length + 9) phBatchInput Z4 1 (by omega)
    (show cleanOf (openBraces ++ "apiKey".toList) phBatchInput = true from by decide)]
  have hf4 : (phBatchInput ++ Z4).length + 9 - phBatchInput.length = Z4.length + 9 := by
    simp only [List.length_append]
    omega
  rw [hf4, hZ4]
  rw [escapePass_go_clean ((c ++ Z5).length + 9) c Z5 1 (by omega)
    (cleanOf_braces_of_notMem hc)]
  have hf5 : (c ++ Z5).length + 9 - c.length = Z5.length + 9 := by
    simp only [List.length_append]
    omega
  rw [hf5, hZ5]
  rw [escapePass_go_clean ((c1Loop ++ d).length + 9) c1Loop d 1 (by omega)
    (show cleanOf (openBraces ++ "apiKey".toList) c1Loop = true from by decide)]
  have hf6 : (c1Loop ++ d).length + 9 - c1Loop.length = d.length + 9 := by
    simp only [List.length_append]
    omega
  rw [hf6]
  rw [escapePass_go_clean_end (d.length + 9) d 1 (by omega)
    (cleanOf_braces_of_notMem hd)]

/-- Second escape pass (`selectedModel`) over the marked result of the
first pass: the dotted `{{selectedModel.pricing.batch.input}}`
occurrence becomes marker 1; nothing else matches. -/
theorem escapePass_c1_second (a b c d : Str) (ha : lbrace ∉ a) (hb : lbrace ∉ b)
    (hc : lbrace ∉ c) (hd : lbrace ∉ d) :
    escapePass "selectedModel".toList
      (a ++ (markerStr 0 ++ (b ++ (phBatchInput ++ (c ++ (c1Loop ++ d)))))) 1 =
      (a ++ (markerStr 0 ++ (b ++ (markerStr 1 ++ (c ++ (c1Loop ++ d))))),
       [(1, phBatchInput)]) := by
  have L2 : phBatchInput.length = 37 := rfl
  unfold escapePass
  set Z5 := c1Loop ++ d with hZ5
  set Z4 := c ++ Z5 with hZ4
  set Z3 := phBatchInput ++ Z4 with hZ3
  set Z2 := b ++ Z3 with hZ2
  set Z1 := markerStr 0 ++ Z2 with hZ1
  rw [escapePass_go_clean (a ++ Z1).length a Z1 1 (Nat.le_refl _)
    (cleanOf_braces_of_notMem ha)]
  have hf1 : (a ++ Z1).length - a.length = Z1.length := by
    simp [List.length_append]
  rw [hf1, hZ1]
  rw [escapePass_go_clean (markerStr 0 ++ Z2).length (markerStr 0) Z2 1 (Nat.le_refl _)
    (show cleanOf (openBraces ++ "selectedModel".toList) (markerStr 0) = true
      from by decide)]
  have hf2 : (markerStr 0 ++ Z2).length - (markerStr 0).length = Z2.length := by
    simp [List.length_append]
  rw [hf2, hZ2]
  rw [escapePass_go_clean (b ++ Z3).length b Z3 1 (Nat.le_refl _)
    (cleanOf_braces_of_notMem hb)]
  have hf3 : (b ++ Z3).length - b.length = Z3.length := by
    simp [List.length_append]
  rw [hf3, hZ3]
  rw [escapePass_go_match "selectedModel".toList phBatchInput Z4
    (phBatchInput ++ Z4).length 1 (Nat.le_refl _) (by decide)
    (matchClient_batchInput Z4)]
  have hf4 : (phBatchInput ++ Z4).length - 1 = Z4.length + 36 := by
    simp only [List.length_append, L2]
    omega
  rw [hf4, hZ4]
  rw [escapePass_go_clean ((c ++ Z5).length + 36) c Z5 2 (by omega)
    (cleanOf_braces_of_notMem hc)]
  have hf5 : (c ++ Z5).length + 36 - c.length = Z5.length + 36 := by
    simp only [List.length_append]
    omega
  rw [hf5, hZ5]
  rw [escapePass_go_clean ((c1Loop ++ d).length + 36) c1Loop d 2 (by omega)
    (show cleanOf (openBraces ++ "selectedModel".toList) c1Loop = true from by decide)]
  have hf6 : (c1Loop ++ d).length + 36 - c1Loop.length = d.length + 36 := by
    simp only [List.length_append]
    omega
  rw [hf6]
  rw [escapePass_go_clean_end (d.length + 36) d 2 (by omega)
    (cleanOf_braces_of_notMem hd)]

/-- The engine copies a brace-free segment through unchanged. -/
theorem hbRender_go_notlb {ms : List Model} : ∀ (fuel : Nat) (X Z : Str),
    (X ++ Z).length ≤ fuel → lbrace ∉ X →
    hbRender.go ms fuel (X ++ Z) =
      (hbRender.go ms (fuel - X.length) Z).map (fun t => X ++ t)
  | fuel, [], Z, _, _ => by
    simp only [List.nil_append, List.length_nil, Nat.sub_zero]
    cases h : hbRender.go ms fuel Z <;> simp [Except.map, h]
  | 0, x :: X, Z, hf, _ => by simp at hf
  | fuel + 1, x :: X, Z, hf, hX => by
    have hx : x ≠ lbrace := fun he => hX (he ▸ List.mem_cons_self x X)
    have hX1 : lbrace ∉ X := fun hm => hX (List.mem_cons_of_mem x hm)
    rw [List.cons_append]
    simp only [hbRender.go]
    rw [if_neg (by
      rw [show openBraces = lbrace :: [lbrace] from rfl, isPrefixOf_head_false hx]
      simp)]
    rw [hbRender_go_notlb fuel X Z
      (by simp only [List.cons_append, List.length_cons, List.length_append] at hf ⊢; omega)
      hX1]
    cases h : hbRender.go ms (fuel - X.length) Z with
    | ok t => simp [Except.map, h, List.length_cons, Nat.succ_sub_succ]
    | error e => simp [Except.map, h, List.length_cons, Nat.succ_sub_succ]

/-- The engine is the identity on a final brace-free segment. -/
theorem hbRender_go_nolb_end {ms : List Model} (fuel : Nat) (X : Str)
    (hf : X.length ≤ fuel) (hX : lbrace ∉ X) :
    hbRender.go ms fuel X = .ok X := by
  have h : hbRender.go ms fuel (X ++ []) =
      (hbRender.go ms (fuel - X.length) []).map (fun t => X ++ t) :=
    hbRender_go_notlb fuel X [] (by simpa using hf) hX
  rw [List.append_nil] at h
  rw [h]
  have hz : hbRender.go ms (fuel - X.length) [] = .ok [] := by
    cases fuel - X.length <;> rfl
  rw [hz]
  simp [Except.map]

/-- The engine expands the claim's `{{#each models}}` loop to
one id line per model of the context. -/
theorem hbRender_go_each {ms : List Model} (fuel : Nat) (Z : Str)
    (hf : (c1Loop ++ Z).length ≤ fuel)
    (hmid : ∀ m ∈ ms, lbrace ∉ m.id) :
    hbRender.go ms fuel (c1Loop ++ Z) =
      (hbRender.go ms (fuel - 1) Z).map (fun t => c1Expansion ms ++ t) := by
  cases fuel with
  | zero =>
    rw [show c1Loop ++ Z = lbrace :: (lbrace :: ("#each ".toList ++ ("models".toList ++
      (closeBraces ++ (c1Body ++ (eachCloseTag ++ Z)))))) from rfl] at hf
    simp at hf
  | succ f =>
    rw [show c1Loop ++ Z = lbrace :: (lbrace :: ("#each ".toList ++ ("models".toList ++
      (closeBraces ++ (c1Body ++ (eachCloseTag ++ Z)))))) from rfl]
    simp only [hbRender.go]
    rw [if_pos (by
      rw [show openBraces = lbrace :: [lbrace] from rfl]
      simp [List.isPrefixOf])]
    rw [show (lbrace :: (lbrace :: ("#each ".toList ++ ("models".toList ++
      (closeBraces ++ (c1Body ++ (eachCloseTag ++ Z))))))).drop 2 =
      "#each ".toList ++ ("models".toList ++ (closeBraces ++ (c1Body ++ (eachCloseTag ++ Z))))
      from rfl]
    rw [if_pos (List.isPrefixOf_iff_prefix.mpr (List.prefix_append _ _))]
    rw [show (lbrace :: (lbrace :: ("#each ".toList ++ ("models".toList ++
      (closeBraces ++ (c1Body ++ (eachCloseTag ++ Z))))))).drop 8 =
      "models".toList ++ (closeBraces ++ (c1Body ++ (eachCloseTag ++ Z))) from rfl]
    rw [splitOnSub_append_clean
      (show cleanOf closeBraces ("models".toList) = true from by decide)]
    rw [splitOnSub_self_append (c1Body ++ (eachCloseTag ++ Z))
      (show closeBraces ≠ [] from by decide)]
    rw [Option.map_some']
    dsimp only
    rw [List.append_nil]
    rw [splitOnSub_append_clean
      (show cleanOf eachCloseTag c1Body = true from by decide)]
    rw [splitOnSub_self_append Z (show eachCloseTag ≠ [] from by decide)]
    rw [Option.map_some']
    dsimp only
    rw [List.append_nil]
    rw [if_pos rfl]
    rw [List.map_congr_left (fun m hm => renderEachBody_c1 (hmid m hm))]
    cases hgo : hbRender.go ms f Z with
    | ok t => simp [Except.map, hgo, c1Expansion]
    | error e => simp [Except.map, hgo, c1Expansion]

/-- The full engine run on the escaped template: markers and surrounding
text pass through; the loop expands. -/
theorem hbRender_c1 (ms : List Model) (a b c d : Str) (ha : lbrace ∉ a)
    (hb : lbrace ∉ b) (hc : lbrace ∉ c) (hd : lbrace ∉ d)
    (hmid : ∀ m ∈ ms, lbrace ∉ m.id) :
    hbRender ms (a ++ (markerStr 0 ++ (b ++ (markerStr 1 ++ (c ++ (c1Loop ++ d)))))) =
      .ok (a ++ (markerStr 0 ++ (b ++ (markerStr 1 ++ (c ++ (c1Expansion ms ++ d)))))) := by
  have L3 : c1Loop.length = 39 := rfl
  unfold hbRender
  set Z5 := c1Loop ++ d with hZ5
  set Z4 := c ++ Z5 with hZ4
  set Z3 := markerStr 1 ++ Z4 with hZ3
  set Z2 := b ++ Z3 with hZ2
  set Z1 := markerStr 0 ++ Z2 with hZ1
  rw [hbRender_go_notlb (a ++ Z1).length a Z1 (Nat.le_refl _) ha]
  have hf1 : (a ++ Z1).length - a.length = Z1.length := by
    simp [List.length_append]
  rw [hf1, hZ1]
  rw [hbRender_go_notlb (markerStr 0 ++ Z2).length (markerStr 0) Z2 (Nat.le_refl _)
    (show lbrace ∉ markerStr 0 from by decide)]
  have hf2 : (markerStr 0 ++ Z2).length - (markerStr 0).length = Z2.length := by
    simp [List.length_append]
  rw [hf2, hZ2]
  rw [hbRender_go_notlb (b ++ Z3).length b Z3 (Nat.le_refl _) hb]
  have hf3 : (b ++ Z3).length - b.length = Z3.length := by
    simp [List.length_append]
  rw [hf3, hZ3]
  rw [hbRender_go_notlb (markerStr 1 ++ Z4).length (markerStr 1) Z4 (Nat.le_refl _)
    (show lbrace ∉ markerStr 1 from by decide)]
  have hf4 : (markerStr 1 ++ Z4).length - (markerStr 1).length = Z4.length := by
    simp [List.length_append]
  rw [hf4, hZ4]
  rw [hbRender_go_notlb (c ++ Z5).length c Z5 (Nat.le_refl _) hc]
  have hf5 : (c ++ Z5).length - c.length = Z5.length := by
    simp [List.length_append]
  rw [hf5, hZ5]
  rw [hbRender_go_each (c1Loop ++ d).length d (Nat.le_refl _) hmid]
  have hf6 : (c1Loop ++ d).length - 1 = d.length + 38 := by
    simp only [List.length_append, L3]
    omega
  rw [hf6]
  rw [hbRender_go_nolb_end (d.length + 38) d (by omega) hd]
  simp [Except.map]

/-- Marker 0 does not occur at the trailing double underscore of
marker 1 when the following text has no underscore. -/
theorem occursIn_marker0_doubleUnderscore {Q : Str} (hQ : ('_' : Char) ∉ Q) :
    occursIn ('_' :: ('_' :: "PLACEHOLDER_0__".toList)) ('_' :: ('_' :: Q)) = false := by
  have hA : ("PLACEHOLDER_0__".toList).isPrefixOf Q = false :=
    isPrefixOf_false_of_mem_notMem '_' (by decide) hQ
  have hB : (('_' :: "PLACEHOLDER_0__".toList) : Str).isPrefixOf Q = false := by
    cases Q with
    | nil => rfl
    | cons q qt =>
      have hq : q ≠ '_' := fun he => hQ (he ▸ List.mem_cons_self q qt)
      exact isPrefixOf_head_false hq
  have hC : occursIn ('_' :: ('_' :: "PLACEHOLDER_0__".toList)) Q = false :=
    occursIn_false_of_head_notMem hQ
  simp only [occursIn, List.isPrefixOf, hA, hB, hC]
  decide

/-- The document refuting the universal form of C1: a client placeholder
inside an `\x7b\x7b#each\x7d\x7d` body. -/
def c1CounterexampleContent : Str :=
  openBraces ++ "#each models".toList ++ closeBraces ++ phApiKey ++ eachCloseTag

/-- C1 counterexample: for the input
`\x7b\x7b#each models\x7d\x7d\x7b\x7bapiKey\x7d\x7d\x7b\x7b/each\x7d\x7d`
and an empty model list, the escape pass replaces the placeholder inside
the loop body by the marker `__PLACEHOLDER_0__`, the loop renders its
body zero times — deleting the marker — and the restore pass finds
nothing to restore: the output is empty, so the `\x7b\x7bapiKey\x7d\x7d`
occurrence of the input does not appear byte-identical in the output,
refuting the claim's universal quantification over input strings. -/
theorem claim1_counterexample :
    occursIn phApiKey c1CounterexampleContent = true
    ∧ templateMarkdown c1CounterexampleContent { models := [] } = []
    ∧ occursIn phApiKey
        (templateMarkdown c1CounterexampleContent { models := [] }) = false := by
  decide

/-- C1 (amended): for every template context whose model ids contain no
brace and no underscore, and all brace-free underscore-free surrounding
texts `a`, `b`, `c`, `d`, the server template stage maps the document
`a {{apiKey}} b {{selectedModel.pricing.batch.input}} c
{{#each models}}- {{this.id}}\n{{/each}} d` to the
same document with the loop fully expanded to one id line per model of the
context and both reserved client placeholders byte-identical to their
input form. -/
theorem claim1_server_stage_preserves_client_placeholders
    (ctx : TemplateContext) (a b c d : Str)
    (ha : lbrace ∉ a ∧ ('_' : Char) ∉ a) (hb : lbrace ∉ b ∧ ('_' : Char) ∉ b)
    (hc : lbrace ∉ c ∧ ('_' : Char) ∉ c) (hd : lbrace ∉ d ∧ ('_' : Char) ∉ d)
    (hm : ∀ m ∈ ctx.models, lbrace ∉ m.id ∧ ('_' : Char) ∉ m.id) :
    templateMarkdown
      (a ++ (phApiKey ++ (b ++ (phBatchInput ++ (c ++ (c1Loop ++ d)))))) ctx =
      a ++ (phApiKey ++ (b ++ (phBatchInput ++
        (c ++ (c1Expansion ctx.models ++ d))))) := by
  obtain ⟨ha1, ha2⟩ := ha
  obtain ⟨hb1, hb2⟩ := hb
  obtain ⟨hc1, hc2⟩ := hc
  obtain ⟨hd1, hd2⟩ := hd
  have hm1 : ∀ m ∈ ctx.models, lbrace ∉ m.id := fun m hmm => (hm m hmm).1
  have hm2 : ('_' : Char) ∉ c1Expansion ctx.models := by
    intro hmem
    rw [c1Expansion, List.mem_flatten] at hmem
    obtain ⟨l, hl, hcl⟩ := hmem
    rw [List.mem_map] at hl
    obtain ⟨m, hmm, rfl⟩ := hl
    rcases List.mem_append.mp hcl with h1 | h2
    · exact absurd h1 (by decide)
    · rcases List.mem_append.mp h2 with h3 | h4
      · exact (hm m hmm).2 h3
      · exact absurd h4 (by decide)
  have hesc : escapeClient
      (a ++ (phApiKey ++ (b ++ (phBatchInput ++ (c ++ (c1Loop ++ d)))))) =
      (a ++ (markerStr 0 ++ (b ++ (markerStr 1 ++ (c ++ (c1Loop ++ d))))),
       [(0, phApiKey), (1, phBatchInput)]) := by
    unfold escapeClient
    rw [escapePass_c1_first a b c d ha1 hb1 hc1 hd1]
    dsimp only
    rw [show ([(0, phApiKey)] : List (Nat × Str)).length = 1 from rfl]
    rw [escapePass_c1_second a b c d ha1 hb1 hc1 hd1]
    rfl
  have hrender := hbRender_c1 ctx.models a b c d ha1 hb1 hc1 hd1 hm1
  have hocc0 : occursIn (markerStr 0)
      (b ++ (markerStr 1 ++ (c ++ (c1Expansion ctx.models ++ d)))) = false := by
    rw [show markerStr 0 = '_' :: ('_' :: "PLACEHOLDER_0__".toList) from rfl]
    rw [occursIn_append_of_head_notMem hb2]
    rw [show markerStr 1 ++ (c ++ (c1Expansion ctx.models ++ d)) =
      "__PLACEHOLDER_1".toList ++ ('_' :: ('_' :: (c ++ (c1Expansion ctx.models ++ d))))
      from rfl]
    rw [occursIn_append_clean (show cleanOf ('_' :: ('_' :: "PLACEHOLDER_0__".toList))
      ("__PLACEHOLDER_1".toList) = true from by decide)]
    exact occursIn_marker0_doubleUnderscore (by
      intro hmem
      rcases List.mem_append.mp hmem with h1 | h2
      · exact hc2 h1
      · rcases List.mem_append.mp h2 with h3 | h4
        · exact hm2 h3
        · exact hd2 h4)
  have hstep1 : replaceAllLit (markerStr 0) phApiKey
      (a ++ (markerStr 0 ++ (b ++ (markerStr 1 ++ (c ++ (c1Expansion ctx.models ++ d)))))) =
      a ++ (phApiKey ++ (b ++ (markerStr 1 ++ (c ++ (c1Expansion ctx.models ++ d))))) :=
    replaceAllLit_append_match
      (show markerStr 0 = '_' :: ('_' :: "PLACEHOLDER_0__".toList) from rfl) ha2 hocc0
  have hocc1 : occursIn (markerStr 1) (c ++ (c1Expansion ctx.models ++ d)) = false := by
    rw [show markerStr 1 = '_' :: ('_' :: "PLACEHOLDER_1__".toList) from rfl]
    rw [occursIn_append_of_head_notMem hc2]
    rw [occursIn_append_of_head_notMem hm2]
    exact occursIn_false_of_head_notMem hd2
  have hX1 : ('_' : Char) ∉ a ++ (phApiKey ++ b) := by
    intro hmem
    rcases List.mem_append.mp hmem with h1 | h2
    · exact ha2 h1
    · rcases List.mem_append.mp h2 with h3 | h4
      · exact absurd h3 (by decide)
      · exact hb2 h4
  have hstep2 : replaceAllLit (markerStr 1) phBatchInput
      (a ++ (phApiKey ++ (b ++ (markerStr 1 ++ (c ++ (c1Expansion ctx.models ++ d)))))) =
      a ++ (phApiKey ++ (b ++ (phBatchInput ++ (c ++ (c1Expansion ctx.models ++ d))))) := by
    rw [show a ++ (phApiKey ++ (b ++ (markerStr 1 ++ (c ++ (c1Expansion ctx.models ++ d))))) =
      (a ++ (phApiKey ++ b)) ++ (markerStr 1 ++ (c ++ (c1Expansion ctx.models ++ d)))
      from by simp [List.append_assoc]]
    rw [replaceAllLit_append_match
      (show markerStr 1 = '_' :: ('_' :: "PLACEHOLDER_1__".toList) from rfl) hX1 hocc1]
    simp [List.append_assoc]
  have hocc : occursIn openBraces
      (a ++ (phApiKey ++ (b ++ (phBatchInput ++ (c ++ (c1Loop ++ d)))))) = true := by
    rw [show a ++ (phApiKey ++ (b ++ (phBatchInput ++ (c ++ (c1Loop ++ d))))) =
      a ++ (openBraces ++ ("apiKey".toList ++ (closeBraces ++
        (b ++ (phBatchInput ++ (c ++ (c1Loop ++ d)))))))
      from by simp [phApiKey, List.append_assoc]]
    exact occursIn_append_self _ _ _
  have hemp : (a ++ (phApiKey ++ (b ++ (phBatchInput ++
      (c ++ (c1Loop ++ d)))))).isEmpty = false := by
    cases a <;> rfl
  unfold templateMarkdown templateMarkdownWith
  rw [if_neg (by rw [hocc, hemp]; decide)]
  rw [hesc]
  dsimp only
  rw [hrender]
  dsimp only
  simp only [restoreClient, List.foldl_cons, List.foldl_nil]
  rw [hstep1, hstep2]

/-- Witness for C1 at a concrete template and a two-model context. -/
theorem claim1_server_stage_preserves_client_placeholders_witness :
    templateMarkdown
      ("Key: ".toList ++ (phApiKey ++ (" batch: ".toList ++ (phBatchInput ++
        (" list:\n".toList ++ (c1Loop ++ " end".toList))))))
      { models := [{ id := "m-one".toList, name := "M One".toList },
                   { id := "m-two".toList, name := "M Two".toList }] } =
      "Key: ".toList ++ (phApiKey ++ (" batch: ".toList ++ (phBatchInput ++
        (" list:\n".toList ++
          (c1Expansion [{ id := "m-one".toList, name := "M One".toList },
                        { id := "m-two".toList, name := "M Two".toList }] ++
            " end".toList))))) :=
  claim1_server_stage_preserves_client_placeholders
    { models := [{ id := "m-one".toList, name := "M One".toList },
                 { id := "m-two".toList, name := "M Two".toList }] }
    "Key: ".toList " batch: ".toList " list:\n".toList " end".toList
    (by decide) (by decide) (by decide) (by decide) (by decide)

end Claims

end DW
